import Mathlib

/-!
Verification of the finance dashboard core (aggregation, recurrence
projection, budget evaluation, reconciliation) against its specification.

The TypeScript source is embedded shallowly:

* amounts are modelled as rationals (the source uses JS numbers; every
  claim checked here is robust to that difference, and the boundary
  constants 0.009 and 0.02 are far from the float rounding of 0.01);
* calendar dates are modelled at day resolution.  A stored transaction
  date string `YYYY-MM-DD` is modelled as a `Ymd` record of its three
  components; equality of canonical date strings coincides with equality
  of the records.  JS `Date` values built by `new Date(y, m, d)` are
  modelled by their day number (days since 1970-01-01) via the standard
  civil-from-days arithmetic, including the JS normalization of
  out-of-range month and day arguments; time-of-day and timezone are
  abstracted away;
* JS `Map` / plain-object records keyed by strings are modelled as
  association lists with insert-or-replace (`aset`), which preserves the
  JS insertion-order semantics observable by the code under test;
* `Array.prototype.sort` with a numeric comparator is modelled by
  `List.insertionSort` with the corresponding total preorder.
-/

/-- Transaction kind (`type` field in the source): `income` or `expense`. -/
inductive TxType where
  | income : TxType
  | expense : TxType
deriving DecidableEq, Repr

/-- Recurrence frequency of a recurring transaction. -/
inductive Freq where
  | weekly : Freq
  | monthly : Freq
deriving DecidableEq, Repr

/-- A calendar date as stored in the `date` field (string `YYYY-MM-DD`):
`year`, `month` (1 to 12, as parsed from the dash-separated string), `day`. -/
structure Ymd where
  year : Int
  month : Int
  day : Int
deriving DecidableEq, Repr

/-- A transaction record, with the fields the core logic reads.  The
`description` field is carried so that theorems can show it plays no role
in reconciliation matching. -/
structure Tx where
  id : String
  description : String
  amount : ℚ
  type : TxType
  category : String
  date : Ymd
  isRecurring : Bool
  frequency : Option Freq
deriving DecidableEq, Repr

/-- A reference instant as produced by `new Date()`, at day resolution:
`year` = `getFullYear()`, `month0` = `getMonth()` (0 to 11),
`day` = `getDate()`. -/
structure JsDate where
  year : Int
  month0 : Int
  day : Int
deriving DecidableEq, Repr

/-- A budget row: category and monthly limit amount. -/
structure Budget where
  category : String
  amount : ℚ
deriving DecidableEq, Repr

/-! ## Day-number arithmetic

`daysFromCivil y m d` is the number of days from 1970-01-01 to the civil
date `y-m-d` (month 1 to 12), the standard civil-calendar conversion.  It
is total and affine in `d`, which lets JS day normalization be expressed
exactly. -/

/-- Days since 1970-01-01 of the Gregorian date `y-m-d` (`m` in 1..12). -/
def daysFromCivil (y m d : Int) : Int :=
  let y' := y - (if m ≤ 2 then 1 else 0)
  let era := Int.fdiv y' 400
  let yoe := y' - era * 400
  let mp := Int.emod (m + 9) 12
  let doy := Int.fdiv (153 * mp + 2) 5 + d - 1
  let doe := yoe * 365 + Int.fdiv yoe 4 - Int.fdiv yoe 100 + doy
  era * 146097 + doe - 719468

/-- JS `getDay()` of a day number: 0 = Sunday .. 6 = Saturday
(1970-01-01 was a Thursday, weekday 4). -/
def jsWeekday (days : Int) : Int :=
  Int.emod (days + 4) 7

/-- Day number of `new Date(y, m0, d)` (month index `m0` 0-based, both
`m0` and `d` possibly out of range, normalized the way JS does: the date
is day `d` of the normalized month, counting from its first day). -/
def jsDateDays (y m0 d : Int) : Int :=
  daysFromCivil (y + Int.fdiv m0 12) (Int.emod m0 12 + 1) 1 + (d - 1)

/-- Day number of "day `d` of the `m0`-indexed month of year `y`"
(month index 0-based, overflowing into adjacent years); the calendar
reading used to state recurrence claims. -/
def civilOfMonthIndex (y m0 d : Int) : Int :=
  daysFromCivil (y + Int.fdiv m0 12) (Int.emod m0 12 + 1) d

/-- `daysFromCivil` is affine in the day argument. -/
theorem daysFromCivil_day_shift (y m d : Int) :
    daysFromCivil y m d = daysFromCivil y m 1 + (d - 1) := by
  simp only [daysFromCivil]
  ring

/-- The JS date constructor model agrees with the calendar reading. -/
theorem jsDateDays_eq_civilOfMonthIndex (y m0 d : Int) :
    jsDateDays y m0 d = civilOfMonthIndex y m0 d := by
  rw [jsDateDays, civilOfMonthIndex,
    daysFromCivil_day_shift (y + Int.fdiv m0 12) (Int.emod m0 12 + 1) d]

/-- Day number of a stored transaction date. -/
def dateDays (d : Ymd) : Int :=
  daysFromCivil d.year d.month d.day

/-- The most recent Sunday on or before `d` (models the source loop
`while (date.getDay() !== 0) date.setDate(date.getDate() - 1)`). -/
def sundayOnOrBefore (d : Int) : Int :=
  d - jsWeekday d

/-! ## Association lists (JS `Map` / string-keyed records) -/

section AssocMap

variable {κ : Type} [DecidableEq κ]

/-- Lookup in an association list (first matching key). -/
def alookup (m : List (κ × ℚ)) (k : κ) : Option ℚ :=
  match m with
  | [] => none
  | kv :: r => if kv.1 = k then some kv.2 else alookup r k

/-- Lookup with default 0 (models `map.get(k) || 0`). -/
def aget (m : List (κ × ℚ)) (k : κ) : ℚ :=
  (alookup m k).getD 0

/-- Insert-or-replace (models `map.set(k, v)` / `obj[k] = v`): replaces
the first binding of `k` in place, else appends, preserving JS insertion
order. -/
def aset (m : List (κ × ℚ)) (k : κ) (v : ℚ) : List (κ × ℚ) :=
  match m with
  | [] => [(k, v)]
  | kv :: r => if kv.1 = k then (k, v) :: r else kv :: aset r k v

theorem alookup_aset_self (m : List (κ × ℚ)) (k : κ) (v : ℚ) :
    alookup (aset m k v) k = some v := by
  induction m with
  | nil => simp [aset, alookup]
  | cons kv r ih =>
    by_cases h : kv.1 = k
    · simp [aset, h, alookup]
    · simp [aset, h, alookup, ih]

theorem alookup_aset_other (m : List (κ × ℚ)) (k k' : κ) (v : ℚ)
    (h : k' ≠ k) : alookup (aset m k v) k' = alookup m k' := by
  induction m with
  | nil => simp [aset, alookup, if_neg (Ne.symm h)]
  | cons kv r ih =>
    by_cases hk : kv.1 = k
    · have hne : kv.1 ≠ k' := by rw [hk]; exact Ne.symm h
      simp [aset, hk, alookup, if_neg (Ne.symm h), if_neg hne]
    · by_cases hk' : kv.1 = k'
      · simp [aset, hk, alookup, hk', if_neg h]
      · simp [aset, hk, alookup, hk', ih]

theorem aget_aset_self (m : List (κ × ℚ)) (k : κ) (v : ℚ) :
    aget (aset m k v) k = v := by
  simp [aget, alookup_aset_self]

theorem aget_aset_other (m : List (κ × ℚ)) (k k' : κ) (v : ℚ) (h : k' ≠ k) :
    aget (aset m k v) k' = aget m k' := by
  simp [aget, alookup_aset_other m k k' v h]

theorem alookup_isSome_aset (m : List (κ × ℚ)) (k : κ) (v : ℚ) :
    (alookup (aset m k v) k).isSome = true := by
  induction m with
  | nil => simp [aset, alookup]
  | cons kv r ih =>
    by_cases h : kv.1 = k
    · simp [aset, h, alookup]
    · simp [aset, h, alookup, ih]

/-- A successful lookup comes from a member pair of the list. -/
theorem alookup_mem (m : List (κ × ℚ)) (k : κ) (v : ℚ)
    (h : alookup m k = some v) : (k, v) ∈ m := by
  induction m with
  | nil => simp [alookup] at h
  | cons kv r ih =>
    by_cases hk : kv.1 = k
    · simp only [alookup, if_pos hk] at h
      cases h
      obtain ⟨k1, v1⟩ := kv
      cases hk
      exact List.mem_cons_self _ _
    · simp only [alookup, if_neg hk] at h
      exact List.mem_cons_of_mem _ (ih h)

/-- Every value in `aset m k v` is `v` or a value of `m`. -/
theorem mem_aset_values (m : List (κ × ℚ)) (k : κ) (v : ℚ)
    {kv : κ × ℚ} (h : kv ∈ aset m k v) : kv.2 = v ∨ kv ∈ m := by
  induction m with
  | nil => simp [aset] at h; simp [h]
  | cons kv' r ih =>
    by_cases hk : kv'.1 = k
    · simp only [aset, if_pos hk, List.mem_cons] at h
      rcases h with h | h
      · left; simp [h]
      · right; exact List.mem_cons_of_mem _ h
    · simp only [aset, if_neg hk, List.mem_cons] at h
      rcases h with h | h
      · right; simp [h]
      · rcases ih h with h' | h'
        · exact Or.inl h'
        · exact Or.inr (List.mem_cons_of_mem _ h')

end AssocMap

/-! ## Aggregation Engine: financialReport (TransactionContext)

The source iterates once over the transactions, accumulating the all-time
signed balance, the closing balance before the current month, and the
income/expense totals of the current and the previous calendar month,
then derives the monthly balances by subtraction. -/

/-- Income, expenses and net balance of one calendar month. -/
structure MonthlyStats where
  income : ℚ
  expenses : ℚ
  balance : ℚ
deriving DecidableEq, Repr

/-- Result of the month-over-month report. -/
structure FinancialReport where
  currentMonth : MonthlyStats
  previousMonth : MonthlyStats
  totalBalance : ℚ
  previousClosingBalance : ℚ
deriving DecidableEq, Repr

/-- Accumulator of the report loop: current-month income and expenses,
previous-month income and expenses, all-time balance, closing balance. -/
structure RepAcc where
  curInc : ℚ
  curExp : ℚ
  prvInc : ℚ
  prvExp : ℚ
  total : ℚ
  closing : ℚ
deriving DecidableEq, Repr

/-- `(year, month0)` read back from `new Date(now)` after
`setMonth(now.getMonth() - 1)`: the month index is decremented with year
carry; JS keeps the day-of-month and normalizes an overflowing day into
the following month (the overflow is at most 3 days, hence at most one
month forward).  The month length is taken from the civil calendar as the
distance between consecutive month starts. -/
def prevMonthPair (y m0 d : Int) : Int × Int :=
  let py := y + Int.fdiv (m0 - 1) 12
  let pm0 := Int.emod (m0 - 1) 12
  if d ≤ civilOfMonthIndex py (pm0 + 1) 1 - civilOfMonthIndex py pm0 1 then
    (py, pm0)
  else
    (py + Int.fdiv (pm0 + 1) 12, Int.emod (pm0 + 1) 12)

/-- One iteration of the `transactions.forEach` body of `financialReport`:
updates the all-time balance; adds to the closing balance when the
transaction is dated strictly before the current month; adds to the
current-month totals on an exact `(year, month)` match; likewise for the
previous month. -/
def reportStep (y m0 py pm0 : Int) (a : RepAcc) (t : Tx) : RepAcc :=
  let tY := t.date.year
  let tM := t.date.month
  let a1 := { a with
    total := if t.type = TxType.income then a.total + t.amount else a.total - t.amount }
  let a2 :=
    if tY < y ∨ (tY = y ∧ tM - 1 < m0) then
      { a1 with
        closing := if t.type = TxType.income then a1.closing + t.amount else a1.closing - t.amount }
    else a1
  let a3 :=
    if tY = y ∧ tM - 1 = m0 then
      (if t.type = TxType.income then { a2 with curInc := a2.curInc + t.amount }
       else { a2 with curExp := a2.curExp + t.amount })
    else a2
  if tY = py ∧ tM - 1 = pm0 then
    (if t.type = TxType.income then { a3 with prvInc := a3.prvInc + t.amount }
     else { a3 with prvExp := a3.prvExp + t.amount })
  else a3

/-- The month-over-month financial report of the transaction provider,
for the reference instant `today`. -/
def financialReport (txs : List Tx) (today : JsDate) : FinancialReport :=
  let pp := prevMonthPair today.year today.month0 today.day
  let a := txs.foldl (reportStep today.year today.month0 pp.1 pp.2) ⟨0, 0, 0, 0, 0, 0⟩
  { currentMonth := ⟨a.curInc, a.curExp, a.curInc - a.curExp⟩
    previousMonth := ⟨a.prvInc, a.prvExp, a.prvInc - a.prvExp⟩
    totalBalance := a.total
    previousClosingBalance := a.closing }

/-! Specification-level sums used to state the report claims. -/

/-- Signed amount of a transaction: positive for income, negative for
expense. -/
def signedAmt (t : Tx) : ℚ :=
  match t.type with
  | TxType.income => t.amount
  | TxType.expense => -t.amount

/-- Sum of `f` over a transaction list. -/
def sumOf (txs : List Tx) (f : Tx → ℚ) : ℚ :=
  (txs.map f).sum

/-- Signed sum of the transactions dated in month `(y, m0)` (0-based
month index, matching `getMonth()`). -/
def monthSignedSum (txs : List Tx) (y m0 : Int) : ℚ :=
  sumOf txs (fun t => if t.date.year = y ∧ t.date.month - 1 = m0 then signedAmt t else 0)

/-- Signed sum of the transactions dated strictly before the first day
of month `(y, m0)`. -/
def beforeSignedSum (txs : List Tx) (y m0 : Int) : ℚ :=
  sumOf txs (fun t =>
    if t.date.year < y ∨ (t.date.year = y ∧ t.date.month - 1 < m0) then signedAmt t else 0)

/-- Signed sum of the transactions dated strictly after month `(y, m0)`. -/
def afterSignedSum (txs : List Tx) (y m0 : Int) : ℚ :=
  sumOf txs (fun t =>
    if y < t.date.year ∨ (t.date.year = y ∧ m0 < t.date.month - 1) then signedAmt t else 0)

/-- Signed sum of all transactions. -/
def allSignedSum (txs : List Tx) : ℚ :=
  sumOf txs signedAmt

theorem sumOf_nil (f : Tx → ℚ) : sumOf [] f = 0 := rfl

theorem sumOf_cons (t : Tx) (txs : List Tx) (f : Tx → ℚ) :
    sumOf (t :: txs) f = f t + sumOf txs f := by
  simp [sumOf]

theorem sumOf_add (txs : List Tx) (f g : Tx → ℚ) :
    sumOf txs (fun t => f t + g t) = sumOf txs f + sumOf txs g := by
  induction txs with
  | nil => simp [sumOf]
  | cons t l ih => simp only [sumOf_cons, ih]; ring

/-- One step of the report loop, written out field by field. -/
theorem reportStep_eq (y m0 py pm0 : Int) (a : RepAcc) (t : Tx) :
    reportStep y m0 py pm0 a t =
      ⟨a.curInc + (if (t.date.year = y ∧ t.date.month - 1 = m0) ∧ t.type = TxType.income then t.amount else 0),
       a.curExp + (if (t.date.year = y ∧ t.date.month - 1 = m0) ∧ t.type ≠ TxType.income then t.amount else 0),
       a.prvInc + (if (t.date.year = py ∧ t.date.month - 1 = pm0) ∧ t.type = TxType.income then t.amount else 0),
       a.prvExp + (if (t.date.year = py ∧ t.date.month - 1 = pm0) ∧ t.type ≠ TxType.income then t.amount else 0),
       a.total + signedAmt t,
       a.closing + (if t.date.year < y ∨ (t.date.year = y ∧ t.date.month - 1 < m0) then signedAmt t else 0)⟩ := by
  cases htype : t.type <;>
  · simp only [reportStep, signedAmt, htype, ne_eq, reduceCtorEq, not_false_eq_true,
      not_true, and_true, and_false, if_true, if_false, ite_self]
    split_ifs <;> simp [RepAcc.mk.injEq] <;> ring_nf <;> exact ⟨trivial, trivial⟩

/-- The report loop is a componentwise sum over the list. -/
theorem reportFold (y m0 py pm0 : Int) (txs : List Tx) (a : RepAcc) :
    txs.foldl (reportStep y m0 py pm0) a =
      ⟨a.curInc + sumOf txs (fun t => if (t.date.year = y ∧ t.date.month - 1 = m0) ∧ t.type = TxType.income then t.amount else 0),
       a.curExp + sumOf txs (fun t => if (t.date.year = y ∧ t.date.month - 1 = m0) ∧ t.type ≠ TxType.income then t.amount else 0),
       a.prvInc + sumOf txs (fun t => if (t.date.year = py ∧ t.date.month - 1 = pm0) ∧ t.type = TxType.income then t.amount else 0),
       a.prvExp + sumOf txs (fun t => if (t.date.year = py ∧ t.date.month - 1 = pm0) ∧ t.type ≠ TxType.income then t.amount else 0),
       a.total + allSignedSum txs,
       a.closing + beforeSignedSum txs y m0⟩ := by
  induction txs generalizing a with
  | nil =>
    cases a
    simp [sumOf, allSignedSum, beforeSignedSum]
  | cons t l ih =>
    rw [List.foldl_cons, ih, reportStep_eq]
    simp only [allSignedSum, beforeSignedSum, sumOf_cons, RepAcc.mk.injEq]
    refine ⟨?_, ?_, ?_, ?_, ?_, ?_⟩ <;> ring

/-- Each transaction is dated before, in, or after the reference month,
exclusively. -/
theorem signed_partition (y m0 : Int) (t : Tx) :
    signedAmt t =
      (if t.date.year < y ∨ (t.date.year = y ∧ t.date.month - 1 < m0) then signedAmt t else 0) +
        (if t.date.year = y ∧ t.date.month - 1 = m0 then signedAmt t else 0) +
        (if y < t.date.year ∨ (t.date.year = y ∧ m0 < t.date.month - 1) then signedAmt t else 0) := by
  split_ifs <;> first | ring1 | (exfalso; omega)

/-- The all-time signed sum splits into before, current, and after the
reference month. -/
theorem allSignedSum_partition (txs : List Tx) (y m0 : Int) :
    allSignedSum txs =
      beforeSignedSum txs y m0 + monthSignedSum txs y m0 + afterSignedSum txs y m0 := by
  induction txs with
  | nil => simp [allSignedSum, beforeSignedSum, monthSignedSum, afterSignedSum, sumOf]
  | cons t l ih =>
    simp only [allSignedSum, beforeSignedSum, monthSignedSum, afterSignedSum,
      sumOf_cons] at ih ⊢
    have hp := signed_partition y m0 t
    linarith

/-- C1 (amended).  For every transaction list and reference date:
the current-month balance equals current-month income minus expenses;
`previousClosingBalance` is the signed sum of every transaction dated
strictly before the first day of the reference month; `totalBalance` is
the all-time signed sum; and `totalBalance` equals
`previousClosingBalance` plus the signed sum of the transactions dated in
the reference month plus the signed sum of the transactions dated after
the reference month.  (The claim as stated omits the last term, so it
fails as soon as a transaction is dated after the reference month.) -/
theorem financialReport_month_identities (txs : List Tx) (today : JsDate) :
    (financialReport txs today).currentMonth.balance
        = (financialReport txs today).currentMonth.income
            - (financialReport txs today).currentMonth.expenses
      ∧ (financialReport txs today).previousClosingBalance
          = beforeSignedSum txs today.year today.month0
      ∧ (financialReport txs today).totalBalance = allSignedSum txs
      ∧ (financialReport txs today).totalBalance
          = (financialReport txs today).previousClosingBalance
              + monthSignedSum txs today.year today.month0
              + afterSignedSum txs today.year today.month0 := by
  have hf := reportFold today.year today.month0
    (prevMonthPair today.year today.month0 today.day).1
    (prevMonthPair today.year today.month0 today.day).2 txs ⟨0, 0, 0, 0, 0, 0⟩
  simp only [financialReport, hf]
  refine ⟨trivial, by ring1, by ring1, ?_⟩
  have hpart := allSignedSum_partition txs today.year today.month0
  simp only [zero_add]
  linarith

/-- C1 counterexample.  With a single income of 100 dated 2024-04-01 and
reference date 2024-03-15, the all-time balance is 100 while the closing
balance before March and the March signed sum are both 0, so
`totalBalance = previousClosingBalance + currentMonthSum` fails. -/
theorem financialReport_future_tx_counterexample :
    (financialReport
        [⟨"t1", "adiantamento", 100, TxType.income, "Outros", ⟨2024, 4, 1⟩, false, none⟩]
        ⟨2024, 2, 15⟩).totalBalance
      ≠ (financialReport
          [⟨"t1", "adiantamento", 100, TxType.income, "Outros", ⟨2024, 4, 1⟩, false, none⟩]
          ⟨2024, 2, 15⟩).previousClosingBalance
          + monthSignedSum
              [⟨"t1", "adiantamento", 100, TxType.income, "Outros", ⟨2024, 4, 1⟩, false, none⟩]
              2024 2 := by
  norm_num [financialReport, reportStep_eq, monthSignedSum, sumOf, signedAmt]

/-! ## Reconciliation Engine (BankConnectModal.reconcileAndSave)

The loop checks every candidate against the `transactions` snapshot
captured before the run (React state updates during the loop do not
change the captured array), counts duplicates as skipped, and inserts
each non-duplicate via `addTransaction`, sequentially and in input
order. -/

/-- Duplicate test: some existing transaction has the same date, an
absolute amount difference strictly below 0.01, and the same type.  The
description is not consulted. -/
def isDuplicate (existing : List Tx) (c : Tx) : Bool :=
  existing.any (fun e =>
    decide (e.date = c.date) &&
      decide (|e.amount - c.amount| < 1 / 100) &&
      decide (e.type = c.type))

/-- The reconciliation run over a candidate batch: returns the list of
inserted transactions (the `addTransaction` calls, in order), the
imported count and the skipped count. -/
def reconcile (existing : List Tx) : List Tx → List Tx × Nat × Nat
  | [] => ([], 0, 0)
  | c :: rest =>
    if isDuplicate existing c then
      let r := reconcile existing rest
      (r.1, r.2.1, r.2.2 + 1)
    else
      let r := reconcile existing rest
      (c :: r.1, r.2.1 + 1, r.2.2)

theorem reconcile_imported_eq_filter (E cs : List Tx) :
    (reconcile E cs).1 = cs.filter (fun c => !isDuplicate E c) := by
  induction cs with
  | nil => rfl
  | cons c rest ih =>
    by_cases h : isDuplicate E c = true
    · simp [reconcile, h, ih]
    · simp [reconcile, h, ih]

theorem reconcile_count_eq_length (E cs : List Tx) :
    (reconcile E cs).2.1 = (reconcile E cs).1.length := by
  induction cs with
  | nil => rfl
  | cons c rest ih =>
    by_cases h : isDuplicate E c = true
    · simp [reconcile, h, ih]
    · simp [reconcile, h, ih]

theorem reconcile_total_count (E cs : List Tx) :
    (reconcile E cs).2.1 + (reconcile E cs).2.2 = cs.length := by
  induction cs with
  | nil => rfl
  | cons c rest ih =>
    by_cases h : isDuplicate E c = true
    · simp only [reconcile, h, if_true, List.length_cons]
      omega
    · simp only [reconcile, h, if_false, Bool.false_eq_true, List.length_cons]
      omega

theorem reconcile_skipped_all (E cs : List Tx)
    (h : ∀ c ∈ cs, isDuplicate E c = true) :
    (reconcile E cs).2.2 = cs.length := by
  induction cs with
  | nil => rfl
  | cons c rest ih =>
    have hc := h c (List.mem_cons_self c rest)
    simp only [reconcile, hc, if_true, List.length_cons]
    rw [ih (fun x hx => h x (List.mem_cons_of_mem c hx))]

theorem isDuplicate_append_left (E F : List Tx) (c : Tx)
    (h : isDuplicate E c = true) : isDuplicate (E ++ F) c = true := by
  simp only [isDuplicate, List.any_append, Bool.or_eq_true]
  exact Or.inl h

theorem isDuplicate_of_mem_right (E F : List Tx) (c : Tx) (h : c ∈ F) :
    isDuplicate (E ++ F) c = true := by
  simp only [isDuplicate, List.any_append, Bool.or_eq_true, List.any_eq_true]
  right
  refine ⟨c, h, ?_⟩
  norm_num

/-- C2.  A candidate is classified duplicate iff some existing
transaction has the same date, the same kind, and an absolute amount
difference strictly below 0.01; the description plays no role.  At the
boundary: same-date same-kind amounts 45 and 45.009 (difference 0.009)
are duplicates, amounts 45 and 45.02 (difference 0.02) are not. -/
theorem isDuplicate_characterization :
    (∀ (existing : List Tx) (c : Tx),
        isDuplicate existing c = true ↔
          ∃ e ∈ existing,
            e.date = c.date ∧ e.type = c.type ∧ |e.amount - c.amount| < 1 / 100)
      ∧ isDuplicate
          [⟨"e1", "TAR MAXI CONTA MENSAL", 45, TxType.expense, "Outros", ⟨2024, 2, 1⟩, false, none⟩]
          ⟨"c1", "tarifa conta", 45.009, TxType.expense, "Outros", ⟨2024, 2, 1⟩, false, none⟩ = true
      ∧ isDuplicate
          [⟨"e1", "TAR MAXI CONTA MENSAL", 45, TxType.expense, "Outros", ⟨2024, 2, 1⟩, false, none⟩]
          ⟨"c2", "tarifa conta", 45.02, TxType.expense, "Outros", ⟨2024, 2, 1⟩, false, none⟩ = false := by
  refine ⟨?_, ?_, ?_⟩
  · intro existing c
    simp only [isDuplicate, List.any_eq_true, Bool.and_eq_true, decide_eq_true_eq]
    constructor
    · rintro ⟨e, he, ⟨h1, h2⟩, h3⟩
      exact ⟨e, he, h1, h3, h2⟩
    · rintro ⟨e, he, h1, h3, h2⟩
      exact ⟨e, he, ⟨h1, h2⟩, h3⟩
  · norm_num [isDuplicate, abs_sub_lt_iff]
  · norm_num [isDuplicate, abs_sub_lt_iff]

/-- C10.  Every candidate is accounted for exactly once:
`importedCount + skippedCount` equals the batch length, `importedCount`
equals the number of insert calls issued, and the inserted transactions
are exactly the candidates with no duplicate among the existing set, in
input order. -/
theorem reconcile_accounts_every_candidate (E cs : List Tx) :
    (reconcile E cs).2.1 + (reconcile E cs).2.2 = cs.length
      ∧ (reconcile E cs).2.1 = (reconcile E cs).1.length
      ∧ (reconcile E cs).1 = cs.filter (fun c => !isDuplicate E c) :=
  ⟨reconcile_total_count E cs, reconcile_count_eq_length E cs,
    reconcile_imported_eq_filter E cs⟩

/-- C4.  Re-running reconciliation against the existing set extended by
the first run imports skips every candidate: the second run has
`skippedCount = length candidates`. -/
theorem reconcile_idempotent (E cs : List Tx) :
    (reconcile (E ++ (reconcile E cs).1) cs).2.2 = cs.length := by
  apply reconcile_skipped_all
  intro c hc
  by_cases h : isDuplicate E c = true
  · exact isDuplicate_append_left _ _ _ h
  · apply isDuplicate_of_mem_right
    rw [reconcile_imported_eq_filter]
    exact List.mem_filter.mpr ⟨hc, by simp [h]⟩

/-! ## Optimistic delete (TransactionContext.deleteTransaction)

The handler snapshots the current list, immediately filters out the
trimmed id, awaits the store delete, and on failure restores the
snapshot and returns false; on success it returns true.  The observable
final state is modelled as a function of whether the store call
succeeds (`storeOk`); the signed-in user is assumed present. -/

/-- Final in-memory list and returned flag of `deleteTransaction`. -/
def deleteTransaction (txs : List Tx) (id : String) (storeOk : Bool) :
    List Tx × Bool :=
  let cleanId := id.trim
  let optimistic := txs.filter (fun t => decide (t.id ≠ cleanId))
  if storeOk then (optimistic, true) else (txs, false)

/-- C9.  Delete is atomic: when the store call fails the list is exactly
the pre-call snapshot and the call reports false; when it succeeds the
result reports true and the final list is the pre-call list with the
transactions matching the trimmed id removed (order of the survivors
preserved: the final list is a sublist of the original). -/
theorem deleteTransaction_atomic (txs : List Tx) (id : String) :
    ((deleteTransaction txs id false).1 = txs
        ∧ (deleteTransaction txs id false).2 = false)
      ∧ ((deleteTransaction txs id true).2 = true
          ∧ (deleteTransaction txs id true).1.Sublist txs
          ∧ ∀ t ∈ txs, (t ∈ (deleteTransaction txs id true).1 ↔ t.id ≠ id.trim)) := by
  refine ⟨⟨rfl, rfl⟩, rfl, List.filter_sublist txs, ?_⟩
  intro t ht
  simp only [deleteTransaction, if_true, List.mem_filter, decide_eq_true_eq]
  exact ⟨fun h => h.2, fun h => ⟨ht, h⟩⟩

/-! ## Recurrence Projector (SubscriptionsView.processedSubs)

For a monthly subscription the source compares the anchor day-of-month
parsed from the transaction date with the current day: strictly smaller
means next month, otherwise this month.  For a weekly subscription it
takes the anchor weekday of the original date and moves forward by the
cyclic weekday difference, forcing a full week when the difference is
not positive. -/

/-- Next due date (day number) computed by `processedSubs` for one
subscription. -/
def processedNextDue (today : JsDate) (sub : Tx) : Int :=
  match sub.frequency with
  | some Freq.monthly =>
    if sub.date.day < today.day then
      jsDateDays today.year (today.month0 + 1) sub.date.day
    else
      jsDateDays today.year today.month0 sub.date.day
  | _ =>
    let orig := jsDateDays sub.date.year (sub.date.month - 1) sub.date.day
    let dayOfWeek := jsWeekday orig
    let todayDayOfWeek := jsWeekday (jsDateDays today.year today.month0 today.day)
    let diff := dayOfWeek - todayDayOfWeek
    let diff := if diff ≤ 0 then diff + 7 else diff
    jsDateDays today.year today.month0 today.day + diff

/-- C3 (amended).  For a monthly subscription with anchor day `d`: the
projected next due date is this month on day `d` when `d` is greater
than **or equal to** the day-of-month of today (a bill anchored on the
current day is due today, this month), and next month on day `d` when `d` is
strictly smaller.  (The claim as stated sends the `d = today.day` case
to next month.)  Due dates are expressed through `civilOfMonthIndex`,
which also fixes the JS normalization for anchor days exceeding the
target month length. -/
theorem processedNextDue_monthly (today : JsDate) (sub : Tx)
    (hf : sub.frequency = some Freq.monthly) :
    (today.day ≤ sub.date.day →
        processedNextDue today sub
          = civilOfMonthIndex today.year today.month0 sub.date.day)
      ∧ (sub.date.day < today.day →
          processedNextDue today sub
            = civilOfMonthIndex today.year (today.month0 + 1) sub.date.day) := by
  constructor
  · intro hle
    rw [processedNextDue, hf]
    simp only [if_neg (not_lt.mpr hle)]
    exact jsDateDays_eq_civilOfMonthIndex today.year today.month0 sub.date.day
  · intro hlt
    rw [processedNextDue, hf]
    simp only [if_pos hlt]
    exact jsDateDays_eq_civilOfMonthIndex today.year (today.month0 + 1) sub.date.day

/-- C3 witness: a subscription anchored on 2024-01-20, monthly, with
today 2024-03-15, is due 2024-03-20; anchored on 2024-01-10 it is due
2024-04-10. -/
theorem processedNextDue_monthly_witness :
    (⟨"s1", "Spotify", 21.90, TxType.expense, "Lazer", ⟨2024, 1, 20⟩, true, some Freq.monthly⟩ : Tx).frequency
        = some Freq.monthly
      ∧ (15 : Int) ≤ 20
      ∧ processedNextDue ⟨2024, 2, 15⟩
          ⟨"s1", "Spotify", 21.90, TxType.expense, "Lazer", ⟨2024, 1, 20⟩, true, some Freq.monthly⟩
          = civilOfMonthIndex 2024 2 20
      ∧ (10 : Int) < 15
      ∧ processedNextDue ⟨2024, 2, 15⟩
          ⟨"s2", "Internet", 99, TxType.expense, "Utilidades", ⟨2024, 1, 10⟩, true, some Freq.monthly⟩
          = civilOfMonthIndex 2024 3 10 :=
  ⟨rfl, by norm_num,
    (processedNextDue_monthly ⟨2024, 2, 15⟩ _ rfl).1 (by norm_num),
    by norm_num,
    (processedNextDue_monthly ⟨2024, 2, 15⟩ _ rfl).2 (by norm_num)⟩

/-- C3 counterexample.  A monthly subscription anchored on day 15 with
today 2024-03-15 (same day-of-month) is projected to 2024-03-15 (this
month, due today), not to 2024-04-15 (next month) as the claim states;
the two dates differ. -/
theorem processedNextDue_boundary_counterexample :
    processedNextDue ⟨2024, 2, 15⟩
        ⟨"s3", "Academia", 80, TxType.expense, "Saúde", ⟨2024, 1, 15⟩, true, some Freq.monthly⟩
        = daysFromCivil 2024 3 15
      ∧ daysFromCivil 2024 3 15 ≠ civilOfMonthIndex 2024 3 15 := by
  constructor
  · decide
  · decide

/-! ## Budget Evaluator (BudgetProgress.budgetStats)

The source filters the current-month expenses, accumulates spend per
category into a string-keyed record, unions the spending categories with
the budgeted categories (a JS `Set`, first-occurrence order), builds one
row per category with `percentage = limit > 0 ? spent/limit*100 : 0`,
drops rows with neither spend nor limit, and sorts descending by
percentage. -/

/-- A utilization row of the budget evaluator. -/
structure BudgetRow where
  category : String
  spent : ℚ
  limit : ℚ
  percentage : ℚ
deriving DecidableEq, Repr

/-- Adding one element to a JS `Set` modelled as a duplicate-free list
in first-insertion order. -/
def insertUnique (l : List String) (x : String) : List String :=
  if x ∈ l then l else l ++ [x]

/-- Descending-percentage comparison used by the final sort. -/
def rowGE (a b : BudgetRow) : Prop :=
  b.percentage ≤ a.percentage

instance : DecidableRel rowGE :=
  fun a b => inferInstanceAs (Decidable (b.percentage ≤ a.percentage))

instance : IsTotal BudgetRow rowGE :=
  ⟨fun a b => le_total b.percentage a.percentage⟩

instance : IsTrans BudgetRow rowGE :=
  ⟨fun _ _ _ hab hbc => le_trans hbc hab⟩

/-- The budget evaluator. -/
def budgetStats (txs : List Tx) (budgets : List Budget) (today : JsDate) :
    List BudgetRow :=
  let currentMonth := today.month0 + 1
  let currentYear := today.year
  let currentMonthTx := txs.filter (fun t =>
    decide (t.type = TxType.expense) &&
      decide (t.date.year = currentYear) && decide (t.date.month = currentMonth))
  let spendByCategory := currentMonthTx.foldl
    (fun m t => aset m t.category (aget m t.category + t.amount)) []
  let activeCategories :=
    (spendByCategory.map Prod.fst ++ budgets.map Budget.category).foldl insertUnique []
  let rows := activeCategories.map (fun catName =>
    let spent := aget spendByCategory catName
    let budgetObj := budgets.find? (fun b => decide (b.category = catName))
    let limit := match budgetObj with | some b => b.amount | none => 0
    let percentage := if 0 < limit then spent / limit * 100 else 0
    (⟨catName, spent, limit, percentage⟩ : BudgetRow))
  List.insertionSort rowGE
    (rows.filter (fun item => decide (0 < item.spent) || decide (0 < item.limit)))

/-- Current-month expense spend of one category (specification form). -/
def monthSpend (txs : List Tx) (today : JsDate) (cat : String) : ℚ :=
  sumOf (txs.filter (fun t =>
      decide (t.type = TxType.expense) &&
        decide (t.date.year = today.year) && decide (t.date.month = today.month0 + 1)))
    (fun t => if t.category = cat then t.amount else 0)

/-- Configured limit of one category: amount of the first matching
budget, 0 when none. -/
def budgetLimit (budgets : List Budget) (cat : String) : ℚ :=
  match budgets.find? (fun b => decide (b.category = cat)) with
  | some b => b.amount
  | none => 0

theorem aget_spendFold (l : List Tx) (m : List (String × ℚ)) (c : String) :
    aget (l.foldl (fun m t => aset m t.category (aget m t.category + t.amount)) m) c
      = aget m c + sumOf l (fun t => if t.category = c then t.amount else 0) := by
  induction l generalizing m with
  | nil => simp [sumOf]
  | cons t l ih =>
    rw [List.foldl_cons, ih, sumOf_cons]
    by_cases hc : t.category = c
    · rw [if_pos hc, hc, aget_aset_self]
      ring
    · rw [aget_aset_other _ _ _ _ (fun hh => hc hh.symm), if_neg hc]
      ring

theorem mem_keys_aset {κ : Type} [DecidableEq κ]
    (m : List (κ × ℚ)) (k c : κ) (v : ℚ) :
    c ∈ (aset m k v).map Prod.fst ↔ c = k ∨ c ∈ m.map Prod.fst := by
  induction m with
  | nil => simp [aset, eq_comm]
  | cons kv r ih =>
    by_cases h : kv.1 = k
    · subst h
      simp [aset, eq_comm]
      try tauto
    · simp [aset, h, ih]
      try tauto

theorem mem_keys_spendFold (l : List Tx) (m : List (String × ℚ)) (c : String) :
    c ∈ (l.foldl (fun m t => aset m t.category (aget m t.category + t.amount)) m).map Prod.fst
      ↔ c ∈ m.map Prod.fst ∨ ∃ t ∈ l, t.category = c := by
  induction l generalizing m with
  | nil => simp
  | cons t l ih =>
    rw [List.foldl_cons, ih]
    rw [mem_keys_aset]
    constructor
    · rintro ((h | h) | h)
      · exact Or.inr ⟨t, List.mem_cons_self _ _, h.symm⟩
      · exact Or.inl h
      · obtain ⟨u, hu, hc⟩ := h
        exact Or.inr ⟨u, List.mem_cons_of_mem _ hu, hc⟩
    · rintro (h | ⟨u, hu, hc⟩)
      · exact Or.inl (Or.inr h)
      · rcases List.mem_cons.mp hu with h' | h'
        · subst h'
          exact Or.inl (Or.inl hc.symm)
        · exact Or.inr ⟨u, h', hc⟩

theorem mem_insertUnique (l : List String) (x c : String) :
    c ∈ insertUnique l x ↔ c ∈ l ∨ c = x := by
  unfold insertUnique
  by_cases h : x ∈ l
  · simp only [if_pos h]
    constructor
    · exact Or.inl
    · rintro (hc | hc)
      · exact hc
      · exact hc ▸ h
  · simp [if_neg h]

theorem mem_foldl_insertUnique (xs acc : List String) (c : String) :
    c ∈ xs.foldl insertUnique acc ↔ c ∈ acc ∨ c ∈ xs := by
  induction xs generalizing acc with
  | nil => simp
  | cons x xs ih =>
    rw [List.foldl_cons, ih, mem_insertUnique]
    constructor
    · rintro ((h | h) | h)
      · exact Or.inl h
      · exact Or.inr (h ▸ List.mem_cons_self _ _)
      · exact Or.inr (List.mem_cons_of_mem _ h)
    · rintro (h | h)
      · exact Or.inl (Or.inl h)
      · rcases List.mem_cons.mp h with h' | h'
        · exact Or.inl (Or.inr h')
        · exact Or.inr h'

theorem sumOf_nonneg (l : List Tx) (f : Tx → ℚ) (h : ∀ t ∈ l, 0 ≤ f t) :
    0 ≤ sumOf l f := by
  induction l with
  | nil => simp [sumOf]
  | cons t l ih =>
    rw [sumOf_cons]
    have := h t (List.mem_cons_self _ _)
    have := ih (fun u hu => h u (List.mem_cons_of_mem _ hu))
    linarith

theorem monthSpend_nonneg (txs : List Tx) (today : JsDate) (cat : String)
    (hpos : ∀ t ∈ txs, 0 ≤ t.amount) : 0 ≤ monthSpend txs today cat := by
  apply sumOf_nonneg
  intro t ht
  have := hpos t (List.mem_of_mem_filter ht)
  split_ifs <;> simp [this]

theorem budgetLimit_nonneg (budgets : List Budget) (cat : String)
    (hbud : ∀ b ∈ budgets, 0 ≤ b.amount) : 0 ≤ budgetLimit budgets cat := by
  unfold budgetLimit
  cases hb : budgets.find? (fun b => decide (b.category = cat)) with
  | none => simp
  | some b => exact hbud b (List.mem_of_find?_eq_some hb)

/-- C5.  The budget evaluator emits rows whose spend is the current-month
expense spend of the category, whose limit is the configured budget (0
when none), and whose percentage is `(spent/limit)*100` when the limit is
positive and 0 when the limit is 0 regardless of spend; every category of
the union of this-month expense categories and budgeted categories with
not both spend and limit zero yields a row; rows with both zero are
dropped; rows are sorted descending by percentage.  In particular a
budget of 0 for "Food" with 50 spent this month yields the row
`(Food, 50, 0, 0)`. -/
theorem budgetStats_evaluator (txs : List Tx) (budgets : List Budget) (today : JsDate)
    (hpos : ∀ t ∈ txs, 0 ≤ t.amount) (hbud : ∀ b ∈ budgets, 0 ≤ b.amount) :
    (∀ row ∈ budgetStats txs budgets today,
        row.spent = monthSpend txs today row.category
          ∧ row.limit = budgetLimit budgets row.category
          ∧ row.percentage = (if 0 < row.limit then row.spent / row.limit * 100 else 0)
          ∧ ¬(row.spent = 0 ∧ row.limit = 0))
      ∧ (∀ cat : String,
          ((∃ t ∈ txs, t.type = TxType.expense ∧ t.date.year = today.year
                ∧ t.date.month = today.month0 + 1 ∧ t.category = cat)
              ∨ ∃ b ∈ budgets, b.category = cat) →
            ¬(monthSpend txs today cat = 0 ∧ budgetLimit budgets cat = 0) →
            ∃ row ∈ budgetStats txs budgets today, row.category = cat)
      ∧ List.Sorted rowGE (budgetStats txs budgets today)
      ∧ budgetStats
          [⟨"f1", "Mercado", 50, TxType.expense, "Food", ⟨2024, 3, 10⟩, false, none⟩]
          [⟨"Food", 0⟩] ⟨2024, 2, 15⟩
          = [⟨"Food", 50, 0, 0⟩] := by
  refine ⟨?_, ?_, ?_, ?_⟩
  · intro row hrow
    simp only [budgetStats] at hrow
    rw [List.Perm.mem_iff (List.perm_insertionSort rowGE _)] at hrow
    rcases List.mem_filter.mp hrow with ⟨hmem, hkeep⟩
    rcases List.mem_map.mp hmem with ⟨cat, hcat, hrow_eq⟩
    subst hrow_eq
    refine ⟨?_, rfl, rfl, ?_⟩
    · show aget _ cat = monthSpend txs today cat
      rw [aget_spendFold, monthSpend]
      simp [aget, alookup]
    · simp only [Bool.or_eq_true, decide_eq_true_eq] at hkeep
      rintro ⟨h0s, h0l⟩
      dsimp only at h0s h0l
      rcases hkeep with h | h
      · rw [h0s] at h
        exact absurd h (lt_irrefl 0)
      · rw [h0l] at h
        exact absurd h (lt_irrefl 0)
  · intro cat hunion hnz
    have hspent0 : 0 ≤ monthSpend txs today cat := monthSpend_nonneg txs today cat hpos
    have hlimit0 : 0 ≤ budgetLimit budgets cat := budgetLimit_nonneg budgets cat hbud
    have hkeep : 0 < monthSpend txs today cat ∨ 0 < budgetLimit budgets cat := by
      by_contra hcon
      push_neg at hcon
      exact hnz ⟨le_antisymm hcon.1 hspent0, le_antisymm hcon.2 hlimit0⟩
    simp only [budgetStats]
    have hactive : cat ∈
        (((txs.filter (fun t =>
            decide (t.type = TxType.expense) &&
              decide (t.date.year = today.year) && decide (t.date.month = today.month0 + 1))).foldl
          (fun m t => aset m t.category (aget m t.category + t.amount)) []).map Prod.fst
          ++ budgets.map Budget.category).foldl insertUnique [] := by
      rw [mem_foldl_insertUnique]
      right
      rw [List.mem_append]
      rcases hunion with ⟨t, ht, hexp, hyear, hmonth, hcatt⟩ | ⟨b, hb, hcatb⟩
      · left
        rw [mem_keys_spendFold]
        right
        refine ⟨t, ?_, hcatt⟩
        rw [List.mem_filter]
        refine ⟨ht, ?_⟩
        simp [hexp, hyear, hmonth]
      · right
        exact List.mem_map.mpr ⟨b, hb, hcatb⟩
    simp only [List.mem_insertionSort, List.mem_filter]
    refine ⟨_, ⟨List.mem_map_of_mem _ hactive, ?_⟩, ?_⟩
    · have hs : aget ((txs.filter (fun t =>
          decide (t.type = TxType.expense) &&
            decide (t.date.year = today.year) && decide (t.date.month = today.month0 + 1))).foldl
          (fun m t => aset m t.category (aget m t.category + t.amount)) []) cat
            = monthSpend txs today cat := by
        rw [aget_spendFold, monthSpend]
        simp [aget, alookup]
      simp only [Bool.or_eq_true, decide_eq_true_eq]
      rw [hs]
      rcases hkeep with h | h
      · exact Or.inl h
      · exact Or.inr h
    · rfl
  · simp only [budgetStats]
    exact List.sorted_insertionSort rowGE _
  · norm_num [budgetStats, insertUnique, aset, aget, alookup,
      List.insertionSort, List.orderedInsert]

/-- C5 witness: the evaluator hypotheses hold at the Scenario D input and
the theorem instantiates there. -/
theorem budgetStats_evaluator_witness :
    (∀ t ∈ [(⟨"f1", "Mercado", 50, TxType.expense, "Food", ⟨2024, 3, 10⟩, false, none⟩ : Tx)], 0 ≤ t.amount)
      ∧ (∀ b ∈ [(⟨"Food", 0⟩ : Budget)], 0 ≤ b.amount)
      ∧ List.Sorted rowGE
          (budgetStats
            [⟨"f1", "Mercado", 50, TxType.expense, "Food", ⟨2024, 3, 10⟩, false, none⟩]
            [⟨"Food", 0⟩] ⟨2024, 2, 15⟩) := by
  have h1 : ∀ t ∈ [(⟨"f1", "Mercado", 50, TxType.expense, "Food", ⟨2024, 3, 10⟩, false, none⟩ : Tx)], 0 ≤ t.amount := by
    intro t ht
    simp only [List.mem_singleton] at ht
    subst ht
    norm_num
  have h2 : ∀ b ∈ [(⟨"Food", 0⟩ : Budget)], 0 ≤ b.amount := by
    intro b hb
    simp only [List.mem_singleton] at hb
    subst hb
    norm_num
  exact ⟨h1, h2,
    (budgetStats_evaluator
      [⟨"f1", "Mercado", 50, TxType.expense, "Food", ⟨2024, 3, 10⟩, false, none⟩]
      [⟨"Food", 0⟩] ⟨2024, 2, 15⟩ h1 h2).2.2.1⟩

/-! ## Expense heatmap (ExpenseHeatmap.heatmapData)

The source sums expense amounts per date string into a `Map` while
tracking the running maximum of the updated values, then walks day by
day from the Sunday on or before `today - 91` up to (and excluding) the
first Sunday strictly after today, emitting for each day its summed
amount and `intensity = maxExpense > 0 ? amount / maxExpense : 0`.
Dates are keyed by day number (equality of the `YYYY-MM-DD` key strings
coincides with equality of day numbers). -/

/-- One emitted heatmap cell. -/
structure HeatCell where
  date : Int
  amount : ℚ
  intensity : ℚ
deriving DecidableEq, Repr


/-- One step of the expense accumulation `forEach`: for an expense, add
its amount to the running total of its date and update the running
maximum with the new value; otherwise leave the accumulator unchanged. -/
def heatStep (acc : List (Int × ℚ) × ℚ) (t : Tx) : List (Int × ℚ) × ℚ :=
  if t.type = TxType.expense then
    let newVal := aget acc.1 (dateDays t.date) + t.amount
    (aset acc.1 (dateDays t.date) newVal,
      if acc.2 < newVal then newVal else acc.2)
  else acc

/-- The expense-per-date map and the running maximum, accumulated over
the transactions exactly as the source `forEach` does. -/
def heatFold (txs : List Tx) : List (Int × ℚ) × ℚ :=
  txs.foldl heatStep ([], 0)

/-- The emitted day grid.  The source loop starts at
`sundayOnOrBefore (today - 91)` (a Sunday) and pushes one cell per day
while `pointer <= today || pointer.getDay() !== 0`; it therefore stops
exactly at the first Sunday strictly after today, which is day number
`today + 7 - jsWeekday today`.  The loop is rendered as a map over the
range of that many consecutive days. -/
def heatmapDays (txs : List Tx) (todayDays : Int) : List HeatCell :=
  let startDate := sundayOnOrBefore (todayDays - 91)
  let mm := heatFold txs
  let len := (todayDays + 7 - jsWeekday todayDays - startDate).toNat
  (List.range len).map (fun (i : Nat) =>
    let d := startDate + (i : Int)
    let amount := aget mm.1 d
    { date := d, amount := amount,
      intensity := if 0 < mm.2 then amount / mm.2 else 0 })

/-- Total expense amount dated on day `d` (specification form). -/
def dailyExpenseSum (txs : List Tx) (d : Int) : ℚ :=
  sumOf txs (fun t => if t.type = TxType.expense ∧ dateDays t.date = d then t.amount else 0)

/-- Maximum daily expense amount across all transaction dates
(0 when there are no expenses). -/
def maxDailyExpense (txs : List Tx) : ℚ :=
  ((txs.filter (fun t => decide (t.type = TxType.expense))).map
    (fun t => dailyExpenseSum txs (dateDays t.date))).foldr max 0

/-- The claimed divisor: maximum daily expense amount among the days of
the emitted window. -/
def windowMaxDaily (txs : List Tx) (todayDays : Int) : ℚ :=
  ((heatmapDays txs todayDays).map (fun c => dailyExpenseSum txs c.date)).foldr max 0

theorem heatStep_fst (acc : List (Int × ℚ) × ℚ) (t : Tx) :
    (heatStep acc t).1
      = if t.type = TxType.expense then
          aset acc.1 (dateDays t.date) (aget acc.1 (dateDays t.date) + t.amount)
        else acc.1 := by
  unfold heatStep
  split_ifs <;> rfl

theorem heatStep_snd (acc : List (Int × ℚ) × ℚ) (t : Tx) :
    (heatStep acc t).2
      = if t.type = TxType.expense then
          max acc.2 (aget acc.1 (dateDays t.date) + t.amount)
        else acc.2 := by
  unfold heatStep
  by_cases he : t.type = TxType.expense
  · simp only [he, reduceIte]
    by_cases hcmp : acc.2 < aget acc.1 (dateDays t.date) + t.amount
    · rw [if_pos hcmp, max_eq_right hcmp.le]
    · rw [if_neg hcmp, max_eq_left (not_lt.mp hcmp)]
  · simp only [he, reduceIte]

theorem heatFold_loop_aget (l : List Tx) (acc : List (Int × ℚ) × ℚ) (d : Int) :
    aget (l.foldl heatStep acc).1 d
      = aget acc.1 d
          + sumOf l (fun t =>
              if t.type = TxType.expense ∧ dateDays t.date = d then t.amount else 0) := by
  induction l generalizing acc with
  | nil => simp [sumOf]
  | cons t l ih =>
    rw [List.foldl_cons, ih, sumOf_cons]
    by_cases he : t.type = TxType.expense
    · by_cases hd : dateDays t.date = d
      · rw [if_pos ⟨he, hd⟩, heatStep_fst, if_pos he, hd, aget_aset_self]
        ring
      · rw [if_neg (fun hh => hd hh.2), heatStep_fst, if_pos he,
          aget_aset_other _ _ _ _ (fun hh => hd hh.symm)]
        ring
    · rw [if_neg (fun hh => he hh.1), heatStep_fst, if_neg he]
      ring

/-- The expense map of the source agrees with the per-day expense sum. -/
theorem heatFold_aget (txs : List Tx) (d : Int) :
    aget (heatFold txs).1 d = dailyExpenseSum txs d := by
  rw [heatFold, heatFold_loop_aget, dailyExpenseSum]
  simp [aget, alookup]

theorem le_foldr_max (l : List ℚ) (a : ℚ) : a ≤ l.foldr max a := by
  induction l with
  | nil => exact le_rfl
  | cons x l ih => exact le_trans ih (le_max_right x _)

theorem mem_le_foldr_max (l : List ℚ) (a x : ℚ) (h : x ∈ l) :
    x ≤ l.foldr max a := by
  induction l with
  | nil => simp at h
  | cons y l ih =>
    rcases List.mem_cons.mp h with h' | h'
    · exact h' ▸ le_max_left _ _
    · exact le_trans (ih h') (le_max_right _ _)

theorem foldr_max_eq_of_le (l : List ℚ) (a : ℚ) (h : ∀ x ∈ l, x ≤ a) :
    l.foldr max a = a := by
  induction l with
  | nil => rfl
  | cons x l ih =>
    rw [List.foldr_cons, ih (fun y hy => h y (List.mem_cons_of_mem _ hy))]
    exact max_eq_right (h x (List.mem_cons_self _ _))

theorem foldr_max_pull (l : List ℚ) (a b : ℚ) :
    l.foldr max (max a b) = max b (l.foldr max a) := by
  induction l with
  | nil => exact max_comm a b
  | cons x l ih =>
    rw [List.foldr_cons, List.foldr_cons, ih, max_left_comm]

theorem foldr_max_le_bound (l : List ℚ) (a B : ℚ) (ha : a ≤ B)
    (h : ∀ x ∈ l, x ≤ B) : l.foldr max a ≤ B := by
  induction l with
  | nil => exact ha
  | cons x l ih =>
    rw [List.foldr_cons]
    exact max_le (h x (List.mem_cons_self _ _))
      (ih (fun y hy => h y (List.mem_cons_of_mem _ hy)))

theorem aget_nonneg {κ : Type} [DecidableEq κ] (m : List (κ × ℚ)) (k : κ)
    (h : ∀ kv ∈ m, 0 ≤ kv.2) : 0 ≤ aget m k := by
  unfold aget
  cases hl : alookup m k with
  | none => simp
  | some v =>
    have := h (k, v) (alookup_mem m k v hl)
    simpa using this

theorem alookup_isSome_aset_any {κ : Type} [DecidableEq κ]
    (m : List (κ × ℚ)) (k k' : κ) (v : ℚ) (h : (alookup m k).isSome = true) :
    (alookup (aset m k' v) k).isSome = true := by
  by_cases hk : k = k'
  · subst hk
    exact alookup_isSome_aset m k v
  · rw [alookup_aset_other m k' k v hk]
    exact h

theorem heatFold_loop_keeps_key (l : List Tx) (acc : List (Int × ℚ) × ℚ) (k : Int)
    (h : (alookup acc.1 k).isSome = true) :
    (alookup (l.foldl heatStep acc).1 k).isSome = true := by
  induction l generalizing acc with
  | nil => exact h
  | cons t l ih =>
    rw [List.foldl_cons]
    apply ih
    rw [heatStep_fst]
    by_cases he : t.type = TxType.expense
    · rw [if_pos he]
      exact alookup_isSome_aset_any _ _ _ _ h
    · rw [if_neg he]
      exact h

/-- The running maximum tracked by the fold equals the maximum of the
final per-date totals (for positive amounts, each update only grows the
totals, so the last write of each date dominates all earlier ones). -/
theorem heatFold_loop_max (l : List Tx) (acc : List (Int × ℚ) × ℚ)
    (hpos : ∀ t ∈ l, 0 < t.amount)
    (hbound : ∀ kv ∈ acc.1, kv.2 ≤ acc.2)
    (hnn : ∀ kv ∈ acc.1, 0 ≤ kv.2)
    (hmx : 0 ≤ acc.2) :
    (l.foldl heatStep acc).2
      = ((l.foldl heatStep acc).1.map Prod.snd).foldr max acc.2 := by
  induction l generalizing acc with
  | nil =>
    symm
    apply foldr_max_eq_of_le
    intro x hx
    rcases List.mem_map.mp hx with ⟨kv, hkv, hx_eq⟩
    exact hx_eq ▸ hbound kv hkv
  | cons t l ih =>
    rw [List.foldl_cons]
    have hposl : ∀ u ∈ l, 0 < u.amount :=
      fun u hu => hpos u (List.mem_cons_of_mem _ hu)
    by_cases he : t.type = TxType.expense
    · have hfst : (heatStep acc t).1
          = aset acc.1 (dateDays t.date) (aget acc.1 (dateDays t.date) + t.amount) := by
        rw [heatStep_fst, if_pos he]
      have hsnd : (heatStep acc t).2
          = max acc.2 (aget acc.1 (dateDays t.date) + t.amount) := by
        rw [heatStep_snd, if_pos he]
      have hnv0 : 0 ≤ aget acc.1 (dateDays t.date) + t.amount := by
        have h1 := aget_nonneg acc.1 (dateDays t.date) hnn
        have h2 := hpos t (List.mem_cons_self _ _)
        linarith
      have hb' : ∀ kv ∈ (heatStep acc t).1, kv.2 ≤ (heatStep acc t).2 := by
        rw [hfst, hsnd]
        intro kv hkv
        rcases mem_aset_values _ _ _ hkv with h' | h'
        · exact h' ▸ le_max_right _ _
        · exact le_trans (hbound kv h') (le_max_left _ _)
      have hn' : ∀ kv ∈ (heatStep acc t).1, 0 ≤ kv.2 := by
        rw [hfst]
        intro kv hkv
        rcases mem_aset_values _ _ _ hkv with h' | h'
        · exact h' ▸ hnv0
        · exact hnn kv h'
      have hm' : 0 ≤ (heatStep acc t).2 := by
        rw [hsnd]
        exact le_trans hmx (le_max_left _ _)
      rw [ih (heatStep acc t) hposl hb' hn' hm', hsnd, foldr_max_pull]
      apply max_eq_right
      have hsome : (alookup (l.foldl heatStep (heatStep acc t)).1 (dateDays t.date)).isSome
          = true := by
        apply heatFold_loop_keeps_key
        rw [hfst]
        exact alookup_isSome_aset _ _ _
      obtain ⟨w, hw⟩ := Option.isSome_iff_exists.mp hsome
      have hwval : aget (l.foldl heatStep (heatStep acc t)).1 (dateDays t.date) = w := by
        simp [aget, hw]
      have hgrow := heatFold_loop_aget l (heatStep acc t) (dateDays t.date)
      have hself : aget (heatStep acc t).1 (dateDays t.date)
          = aget acc.1 (dateDays t.date) + t.amount := by
        rw [hfst]
        exact aget_aset_self _ _ _
      have hsum0 : 0 ≤ sumOf l (fun u =>
          if u.type = TxType.expense ∧ dateDays u.date = dateDays t.date then u.amount else 0) := by
        apply sumOf_nonneg
        intro u hu
        split_ifs
        · exact (hposl u hu).le
        · exact le_rfl
      have hnvw : aget acc.1 (dateDays t.date) + t.amount ≤ w := by
        rw [← hwval, hgrow, hself]
        linarith
      have hwvals : w ∈ (l.foldl heatStep (heatStep acc t)).1.map Prod.snd :=
        List.mem_map_of_mem Prod.snd (alookup_mem _ _ _ hw)
      exact le_trans hnvw (mem_le_foldr_max _ _ _ hwvals)
    · have hstep : heatStep acc t = acc := by
        unfold heatStep
        rw [if_neg he]
      rw [hstep]
      exact ih acc hposl hbound hnn hmx

theorem mem_keys_heatFold_loop (l : List Tx) (acc : List (Int × ℚ) × ℚ) (c : Int) :
    c ∈ (l.foldl heatStep acc).1.map Prod.fst
      ↔ c ∈ acc.1.map Prod.fst ∨ ∃ t ∈ l, t.type = TxType.expense ∧ dateDays t.date = c := by
  induction l generalizing acc with
  | nil => simp
  | cons t l ih =>
    rw [List.foldl_cons, ih]
    by_cases he : t.type = TxType.expense
    · have hfst : (heatStep acc t).1
          = aset acc.1 (dateDays t.date) (aget acc.1 (dateDays t.date) + t.amount) := by
        rw [heatStep_fst, if_pos he]
      rw [hfst, mem_keys_aset]
      constructor
      · rintro ((h | h) | h)
        · exact Or.inr ⟨t, List.mem_cons_self _ _, he, h.symm⟩
        · exact Or.inl h
        · obtain ⟨u, hu, hue, huc⟩ := h
          exact Or.inr ⟨u, List.mem_cons_of_mem _ hu, hue, huc⟩
      · rintro (h | ⟨u, hu, hue, huc⟩)
        · exact Or.inl (Or.inr h)
        · rcases List.mem_cons.mp hu with h' | h'
          · subst h'
            exact Or.inl (Or.inl huc.symm)
          · exact Or.inr ⟨u, h', hue, huc⟩
    · have hstep : heatStep acc t = acc := by
        unfold heatStep
        rw [if_neg he]
      rw [hstep]
      constructor
      · rintro (h | ⟨u, hu, hue, huc⟩)
        · exact Or.inl h
        · exact Or.inr ⟨u, List.mem_cons_of_mem _ hu, hue, huc⟩
      · rintro (h | ⟨u, hu, hue, huc⟩)
        · exact Or.inl h
        · rcases List.mem_cons.mp hu with h' | h'
          · subst h'
            exact absurd hue he
          · exact Or.inr ⟨u, h', hue, huc⟩

theorem keys_nodup_aset {κ : Type} [DecidableEq κ] (m : List (κ × ℚ)) (k : κ) (v : ℚ)
    (h : (m.map Prod.fst).Nodup) : ((aset m k v).map Prod.fst).Nodup := by
  induction m with
  | nil => simp [aset]
  | cons kv r ih =>
    by_cases hk : kv.1 = k
    · rw [aset]
      simp only [if_pos hk]
      rw [List.map_cons] at h ⊢
      rw [hk] at h
      exact h
    · rw [aset]
      simp only [if_neg hk]
      rw [List.map_cons] at h ⊢
      rcases List.nodup_cons.mp h with ⟨hnotin, hnd⟩
      refine List.nodup_cons.mpr ⟨?_, ih hnd⟩
      rw [mem_keys_aset]
      rintro (h' | h')
      · exact hk h'
      · exact hnotin h'

theorem heatFold_loop_keys_nodup (l : List Tx) (acc : List (Int × ℚ) × ℚ)
    (h : (acc.1.map Prod.fst).Nodup) :
    ((l.foldl heatStep acc).1.map Prod.fst).Nodup := by
  induction l generalizing acc with
  | nil => exact h
  | cons t l ih =>
    rw [List.foldl_cons]
    apply ih
    rw [heatStep_fst]
    by_cases he : t.type = TxType.expense
    · rw [if_pos he]
      exact keys_nodup_aset _ _ _ h
    · rw [if_neg he]
      exact h

theorem alookup_of_mem_nodup {κ : Type} [DecidableEq κ] (m : List (κ × ℚ)) (kv : κ × ℚ)
    (hnd : (m.map Prod.fst).Nodup) (h : kv ∈ m) : alookup m kv.1 = some kv.2 := by
  induction m with
  | nil => simp at h
  | cons kv' r ih =>
    rw [List.map_cons] at hnd
    rcases List.nodup_cons.mp hnd with ⟨hnotin, hnd'⟩
    rcases List.mem_cons.mp h with h' | h'
    · subst h'
      rw [alookup, if_pos rfl]
    · have hne : kv'.1 ≠ kv.1 := by
        intro hcon
        apply hnotin
        rw [hcon]
        exact List.mem_map_of_mem Prod.fst h'
      rw [alookup, if_neg hne]
      exact ih hnd' h'

theorem heatFold_keys (txs : List Tx) (c : Int) :
    c ∈ (heatFold txs).1.map Prod.fst
      ↔ ∃ t ∈ txs, t.type = TxType.expense ∧ dateDays t.date = c := by
  rw [heatFold, mem_keys_heatFold_loop]
  simp

theorem heatFold_nodup (txs : List Tx) :
    ((heatFold txs).1.map Prod.fst).Nodup :=
  heatFold_loop_keys_nodup txs ([], 0) (by simp)

theorem heatFold_max_values (txs : List Tx) (hpos : ∀ t ∈ txs, 0 < t.amount) :
    (heatFold txs).2 = ((heatFold txs).1.map Prod.snd).foldr max 0 :=
  heatFold_loop_max txs ([], 0) hpos (by simp) (by simp) le_rfl

/-- The running maximum of the source equals the maximum daily expense
amount over all transaction dates. -/
theorem heatFold_max (txs : List Tx) (hpos : ∀ t ∈ txs, 0 < t.amount) :
    (heatFold txs).2 = maxDailyExpense txs := by
  rw [heatFold_max_values txs hpos, maxDailyExpense]
  apply le_antisymm
  · apply foldr_max_le_bound
    · exact le_foldr_max _ 0
    · intro x hx
      rcases List.mem_map.mp hx with ⟨kv, hkv, hx_eq⟩
      have h1 : alookup (heatFold txs).1 kv.1 = some kv.2 :=
        alookup_of_mem_nodup _ kv (heatFold_nodup txs) hkv
      have h2 : kv.2 = dailyExpenseSum txs kv.1 := by
        rw [← heatFold_aget txs kv.1]
        simp [aget, h1]
      have h4 : kv.1 ∈ (heatFold txs).1.map Prod.fst :=
        List.mem_map_of_mem Prod.fst hkv
      rw [heatFold_keys] at h4
      obtain ⟨t, ht, hexp, hdt⟩ := h4
      have h5 : dailyExpenseSum txs (dateDays t.date)
          ∈ (txs.filter (fun t => decide (t.type = TxType.expense))).map
              (fun t => dailyExpenseSum txs (dateDays t.date)) :=
        List.mem_map_of_mem _ (List.mem_filter.mpr ⟨ht, by simp [hexp]⟩)
      rw [← hx_eq, h2, ← hdt]
      exact mem_le_foldr_max _ _ _ h5
  · apply foldr_max_le_bound
    · exact le_foldr_max _ 0
    · intro x hx
      rcases List.mem_map.mp hx with ⟨t, htf, hx_eq⟩
      rcases List.mem_filter.mp htf with ⟨ht, hexp'⟩
      have hexp : t.type = TxType.expense := by simpa using hexp'
      have hk : dateDays t.date ∈ (heatFold txs).1.map Prod.fst :=
        (heatFold_keys txs (dateDays t.date)).mpr ⟨t, ht, hexp, rfl⟩
      rcases List.mem_map.mp hk with ⟨kv, hkv, hkey⟩
      have h1 : alookup (heatFold txs).1 kv.1 = some kv.2 :=
        alookup_of_mem_nodup _ kv (heatFold_nodup txs) hkv
      have h2 : kv.2 = dailyExpenseSum txs kv.1 := by
        rw [← heatFold_aget txs kv.1]
        simp [aget, h1]
      have hvals : kv.2 ∈ (heatFold txs).1.map Prod.snd :=
        List.mem_map_of_mem Prod.snd hkv
      rw [← hx_eq, ← hkey, ← h2]
      exact mem_le_foldr_max _ _ _ hvals

/-- C7 (amended).  Every emitted heatmap day carries the summed
expense amount of that day, and its intensity is that amount divided by the maximum
daily expense amount over **all** transaction dates (not merely the
window), 0 when there are no expenses at all.  (The claim as stated
divides by the maximum within the window, which differs as soon as a
larger daily total lies outside the window.) -/
theorem heatmapDays_intensity (txs : List Tx) (todayDays : Int)
    (hpos : ∀ t ∈ txs, 0 < t.amount) :
    ∀ cell ∈ heatmapDays txs todayDays,
      cell.amount = dailyExpenseSum txs cell.date
        ∧ cell.intensity =
            (if 0 < maxDailyExpense txs then cell.amount / maxDailyExpense txs else 0) := by
  intro cell hcell
  simp only [heatmapDays] at hcell
  rcases List.mem_map.mp hcell with ⟨i, hi, hcell_eq⟩
  subst hcell_eq
  constructor
  · exact heatFold_aget txs _
  · dsimp only
    rw [heatFold_max txs hpos]

/-- C7 witness: with a single expense of 50 dated 2024-03-15 (day number
19797) and today 2024-03-15, the intensity hypothesis and conclusion
instantiate at the emitted cell for that day. -/
theorem heatmapDays_intensity_witness :
    (∀ t ∈ [(⟨"h1", "Mercado", 50, TxType.expense, "Outros", ⟨2024, 3, 15⟩, false, none⟩ : Tx)],
        0 < t.amount)
      ∧ ((⟨19797, 50, 1⟩ : HeatCell).amount
            = dailyExpenseSum
                [⟨"h1", "Mercado", 50, TxType.expense, "Outros", ⟨2024, 3, 15⟩, false, none⟩]
                (⟨19797, 50, 1⟩ : HeatCell).date
          ∧ (⟨19797, 50, 1⟩ : HeatCell).intensity =
              (if 0 < maxDailyExpense
                    [⟨"h1", "Mercado", 50, TxType.expense, "Outros", ⟨2024, 3, 15⟩, false, none⟩] then
                  (⟨19797, 50, 1⟩ : HeatCell).amount
                    / maxDailyExpense
                        [⟨"h1", "Mercado", 50, TxType.expense, "Outros", ⟨2024, 3, 15⟩, false, none⟩]
                else 0)) := by
  have hpos : ∀ t ∈ [(⟨"h1", "Mercado", 50, TxType.expense, "Outros", ⟨2024, 3, 15⟩, false, none⟩ : Tx)],
      0 < t.amount := by
    intro t ht
    simp only [List.mem_singleton] at ht
    subst ht
    norm_num
  have hdate : dateDays ⟨2024, 3, 15⟩ = 19797 := by decide
  have hstart : sundayOnOrBefore (19797 - 91) = 19701 := by decide
  have hwd : jsWeekday 19797 = 5 := by decide
  have hstart2 : sundayOnOrBefore 19706 = 19701 := by decide
  have hmem : (⟨19797, 50, 1⟩ : HeatCell)
      ∈ heatmapDays
          [⟨"h1", "Mercado", 50, TxType.expense, "Outros", ⟨2024, 3, 15⟩, false, none⟩] 19797 := by
    simp only [heatmapDays, List.mem_map]
    refine ⟨96, ?_, ?_⟩
    · rw [List.mem_range]
      norm_num [hwd, hstart, hstart2]
    · norm_num [hstart, hstart2, heatFold, heatStep, hdate, aget, alookup, aset]
  exact ⟨hpos,
    heatmapDays_intensity
      [⟨"h1", "Mercado", 50, TxType.expense, "Outros", ⟨2024, 3, 15⟩, false, none⟩]
      19797 hpos ⟨19797, 50, 1⟩ hmem⟩


/-- C7 counterexample.  With an expense of 100 dated 2020-01-01 (outside
the window) and an expense of 50 dated 2024-03-15 = today (inside), the
emitted cell for today has intensity 50/100 = 1/2, while the claim
prescribes amount divided by the in-window maximum, 50/50 = 1. -/
theorem heatmapDays_window_counterexample :
    (⟨19797, 50, 1/2⟩ : HeatCell) ∈ heatmapDays [⟨"h0", "Compra antiga", 100, TxType.expense, "Outros", ⟨2020, 1, 1⟩, false, none⟩,
        ⟨"h1", "Mercado", 50, TxType.expense, "Outros", ⟨2024, 3, 15⟩, false, none⟩] 19797
      ∧ dailyExpenseSum [⟨"h0", "Compra antiga", 100, TxType.expense, "Outros", ⟨2020, 1, 1⟩, false, none⟩,
        ⟨"h1", "Mercado", 50, TxType.expense, "Outros", ⟨2024, 3, 15⟩, false, none⟩] (19797 : Int) = 50
      ∧ windowMaxDaily [⟨"h0", "Compra antiga", 100, TxType.expense, "Outros", ⟨2020, 1, 1⟩, false, none⟩,
        ⟨"h1", "Mercado", 50, TxType.expense, "Outros", ⟨2024, 3, 15⟩, false, none⟩] 19797 = 50
      ∧ (⟨19797, 50, 1/2⟩ : HeatCell).intensity
          ≠ dailyExpenseSum [⟨"h0", "Compra antiga", 100, TxType.expense, "Outros", ⟨2020, 1, 1⟩, false, none⟩,
        ⟨"h1", "Mercado", 50, TxType.expense, "Outros", ⟨2024, 3, 15⟩, false, none⟩] ((⟨19797, 50, 1/2⟩ : HeatCell)).date
              / windowMaxDaily [⟨"h0", "Compra antiga", 100, TxType.expense, "Outros", ⟨2020, 1, 1⟩, false, none⟩,
        ⟨"h1", "Mercado", 50, TxType.expense, "Outros", ⟨2024, 3, 15⟩, false, none⟩] 19797 := by
  have hdate0 : dateDays ⟨2020, 1, 1⟩ = 18262 := by decide
  have hdate1 : dateDays ⟨2024, 3, 15⟩ = 19797 := by decide
  have hstart : sundayOnOrBefore (19797 - 91) = 19701 := by decide
  have hstart2 : sundayOnOrBefore 19706 = 19701 := by decide
  have hwd : jsWeekday 19797 = 5 := by decide
  have hds : ∀ d : Int, dailyExpenseSum [⟨"h0", "Compra antiga", 100, TxType.expense, "Outros", ⟨2020, 1, 1⟩, false, none⟩,
        ⟨"h1", "Mercado", 50, TxType.expense, "Outros", ⟨2024, 3, 15⟩, false, none⟩] d
      = (if (18262 : Int) = d then (100 : ℚ) else 0)
          + (if (19797 : Int) = d then 50 else 0) := by
    intro d
    simp [dailyExpenseSum, sumOf, hdate0, hdate1]
  have hmem : (⟨19797, 50, 1/2⟩ : HeatCell) ∈ heatmapDays [⟨"h0", "Compra antiga", 100, TxType.expense, "Outros", ⟨2020, 1, 1⟩, false, none⟩,
        ⟨"h1", "Mercado", 50, TxType.expense, "Outros", ⟨2024, 3, 15⟩, false, none⟩] 19797 := by
    simp only [heatmapDays, List.mem_map]
    refine ⟨96, ?_, ?_⟩
    · rw [List.mem_range]
      norm_num [hwd, hstart, hstart2]
    · norm_num [hstart, hstart2, heatFold, heatStep, hdate0, hdate1, aget, alookup, aset]
  have hd50 : dailyExpenseSum [⟨"h0", "Compra antiga", 100, TxType.expense, "Outros", ⟨2020, 1, 1⟩, false, none⟩,
        ⟨"h1", "Mercado", 50, TxType.expense, "Outros", ⟨2024, 3, 15⟩, false, none⟩] (19797 : Int) = 50 := by
    norm_num [hds]
  have hwmax : windowMaxDaily [⟨"h0", "Compra antiga", 100, TxType.expense, "Outros", ⟨2020, 1, 1⟩, false, none⟩,
        ⟨"h1", "Mercado", 50, TxType.expense, "Outros", ⟨2024, 3, 15⟩, false, none⟩] 19797 = 50 := by
    rw [windowMaxDaily]
    apply le_antisymm
    · apply foldr_max_le_bound
      · norm_num
      · intro x hx
        rcases List.mem_map.mp hx with ⟨c, hc, hx_eq⟩
        simp only [heatmapDays, List.mem_map] at hc
        obtain ⟨i, hi, hc_eq⟩ := hc
        have hcd : c.date = 19701 + (i : Int) := by
          rw [← hc_eq]
          dsimp only
          rw [hstart]
        rw [← hx_eq, hcd, hds]
        have h1 : ¬((18262 : Int) = 19701 + (i : Int)) := by omega
        rw [if_neg h1]
        split_ifs <;> norm_num
    · have h5 : dailyExpenseSum [⟨"h0", "Compra antiga", 100, TxType.expense, "Outros", ⟨2020, 1, 1⟩, false, none⟩,
        ⟨"h1", "Mercado", 50, TxType.expense, "Outros", ⟨2024, 3, 15⟩, false, none⟩] ((⟨19797, 50, 1/2⟩ : HeatCell)).date
          ∈ (heatmapDays [⟨"h0", "Compra antiga", 100, TxType.expense, "Outros", ⟨2020, 1, 1⟩, false, none⟩,
        ⟨"h1", "Mercado", 50, TxType.expense, "Outros", ⟨2024, 3, 15⟩, false, none⟩] 19797).map (fun c => dailyExpenseSum [⟨"h0", "Compra antiga", 100, TxType.expense, "Outros", ⟨2020, 1, 1⟩, false, none⟩,
        ⟨"h1", "Mercado", 50, TxType.expense, "Outros", ⟨2024, 3, 15⟩, false, none⟩] c.date) :=
        List.mem_map_of_mem _ hmem
      have h6 : dailyExpenseSum [⟨"h0", "Compra antiga", 100, TxType.expense, "Outros", ⟨2020, 1, 1⟩, false, none⟩,
        ⟨"h1", "Mercado", 50, TxType.expense, "Outros", ⟨2024, 3, 15⟩, false, none⟩] ((⟨19797, 50, 1/2⟩ : HeatCell)).date = 50 := by
        dsimp only
        exact hd50
      have h7 := mem_le_foldr_max _ 0 _ h5
      rw [h6] at h7
      exact h7
  refine ⟨hmem, hd50, hwmax, ?_⟩
  rw [hwmax]
  dsimp only
  rw [hd50]
  norm_num

/-! ## Balance history (BalanceTrendChart)

The source sorts the transactions chronologically, replays them into a
date-keyed cumulative-balance map, starts at the later of the earliest
transaction date and six months before today, seeds the carried-in
balance from the last map entry before the start, and walks day by day
through today, carrying the balance forward.  There is no week
alignment anywhere in this code. -/

/-- Chronological comparison used by the initial sort. -/
def txLE (a b : Tx) : Prop :=
  dateDays a.date ≤ dateDays b.date

instance : DecidableRel txLE :=
  fun a b => inferInstanceAs (Decidable (dateDays a.date ≤ dateDays b.date))

instance : IsTotal Tx txLE :=
  ⟨fun a b => Int.le_total (dateDays a.date) (dateDays b.date)⟩

instance : IsTrans Tx txLE :=
  ⟨fun _ _ _ hab hbc => le_trans hab hbc⟩

/-- The gap-filling walk: one entry per day, taking the map value when
the day has one and carrying the previous balance otherwise.  The fuel
is the number of loop iterations, `(today + 1 - start).toNat`. -/
def fillDays (m : List (Int × ℚ)) : ℚ → Int → Nat → List (Int × ℚ)
  | _, _, 0 => []
  | lk, p, Nat.succ n =>
    let lk2 := (alookup m p).getD lk
    (p, lk2) :: fillDays m lk2 (p + 1) n

/-- The balance-history series: pairs of day number and balance. -/
def balanceTrend (txs : List Tx) (today : JsDate) : List (Int × ℚ) :=
  let sortedTx := List.insertionSort txLE txs
  match sortedTx with
  | [] => []
  | first :: _ =>
    let hm := sortedTx.foldl
      (fun (acc : List (Int × ℚ) × ℚ) t =>
        let nb := if t.type = TxType.income then acc.2 + t.amount else acc.2 - t.amount
        (aset acc.1 (dateDays t.date) nb, nb)) ([], 0)
    let todayDays := jsDateDays today.year today.month0 today.day
    let sixMonthsAgo := jsDateDays today.year (today.month0 - 6) today.day
    let start := if sixMonthsAgo < dateDays first.date then dateDays first.date else sixMonthsAgo
    let lk0 := hm.1.foldl (fun lk kv => if kv.1 < start then kv.2 else lk) 0
    fillDays hm.1 lk0 start (todayDays + 1 - start).toNat

theorem fillDays_map_fst (m : List (Int × ℚ)) (lk : ℚ) (p : Int) (n : Nat) :
    (fillDays m lk p n).map Prod.fst
      = (List.range n).map (fun (i : Nat) => p + (i : Int)) := by
  induction n generalizing lk p with
  | zero => rfl
  | succ n ih =>
    show ((p, (alookup m p).getD lk)
        :: fillDays m ((alookup m p).getD lk) (p + 1) n).map Prod.fst = _
    rw [List.map_cons, ih, List.range_succ_eq_map, List.map_cons, List.map_map]
    congr 1
    · norm_num
    · apply List.map_congr_left
      intro i hi
      show p + 1 + (i : Int) = p + ((i.succ : Nat) : Int)
      push_cast
      ring

/-- C6 (amended).  For a non-empty transaction list with earliest date
`e`, the balance-history series enumerates consecutive days starting
exactly at the later of `e` and (today minus six months), through today
inclusive — with **no** snapping to a week-start boundary.  (The claim
as stated snaps the start backward to the most recent week start; the
code has no such alignment.) -/
theorem balanceTrend_grid (txs : List Tx) (today : JsDate) (e : Int)
    (hmem : ∃ t ∈ txs, dateDays t.date = e)
    (hmin : ∀ t ∈ txs, e ≤ dateDays t.date) :
    (balanceTrend txs today).map Prod.fst
      = (List.range ((jsDateDays today.year today.month0 today.day + 1
            - max e (jsDateDays today.year (today.month0 - 6) today.day)).toNat)).map
          (fun (i : Nat) =>
            max e (jsDateDays today.year (today.month0 - 6) today.day) + (i : Int)) := by
  obtain ⟨t0, ht0, ht0e⟩ := hmem
  obtain ⟨first, rest, hs⟩ : ∃ f r, List.insertionSort txLE txs = f :: r := by
    cases h : List.insertionSort txLE txs with
    | nil =>
      exfalso
      have hmm2 : t0 ∈ List.insertionSort txLE txs := (List.mem_insertionSort txLE).mpr ht0
      rw [h] at hmm2
      exact absurd hmm2 (List.not_mem_nil t0)
    | cons f r => exact ⟨f, r, rfl⟩
  have hfirst_mem : first ∈ txs := by
    apply (List.mem_insertionSort txLE).mp
    rw [hs]
    exact List.mem_cons_self _ _
  have h1 : e ≤ dateDays first.date := hmin first hfirst_mem
  have hsorted : List.Sorted txLE (first :: rest) := by
    rw [← hs]
    exact List.sorted_insertionSort txLE txs
  have h2 : dateDays first.date ≤ e := by
    have ht0s : t0 ∈ first :: rest := by
      rw [← hs]
      exact (List.mem_insertionSort txLE).mpr ht0
    rcases List.mem_cons.mp ht0s with h | h
    · rw [← h, ht0e]
    · have hrel := List.rel_of_sorted_cons hsorted t0 h
      rw [txLE, ht0e] at hrel
      exact hrel
  have hfe : dateDays first.date = e := le_antisymm h2 h1
  have hstart_eq :
      (if jsDateDays today.year (today.month0 - 6) today.day < dateDays first.date
          then dateDays first.date
          else jsDateDays today.year (today.month0 - 6) today.day)
        = max e (jsDateDays today.year (today.month0 - 6) today.day) := by
    rw [hfe]
    by_cases h : jsDateDays today.year (today.month0 - 6) today.day < e
    · rw [if_pos h, max_eq_left h.le]
    · rw [if_neg h, max_eq_right (not_lt.mp h)]
  simp only [balanceTrend]
  rw [hs]
  simp only [hstart_eq]
  exact fillDays_map_fst _ _ _ _

/-- C6 witness: one income dated 2024-03-13 (day 19795, a Wednesday),
today 2024-03-15; the series grid starts at day 19795. -/
theorem balanceTrend_grid_witness :
    (∃ t ∈ [(⟨"b1", "Salario", 100, TxType.income, "Salário", ⟨2024, 3, 13⟩, false, none⟩ : Tx)],
        dateDays t.date = 19795)
      ∧ (∀ t ∈ [(⟨"b1", "Salario", 100, TxType.income, "Salário", ⟨2024, 3, 13⟩, false, none⟩ : Tx)],
          (19795 : Int) ≤ dateDays t.date)
      ∧ (balanceTrend
            [⟨"b1", "Salario", 100, TxType.income, "Salário", ⟨2024, 3, 13⟩, false, none⟩]
            ⟨2024, 2, 15⟩).map Prod.fst
          = (List.range ((jsDateDays 2024 2 15 + 1
                - max 19795 (jsDateDays 2024 (2 - 6) 15)).toNat)).map
              (fun (i : Nat) => max 19795 (jsDateDays 2024 (2 - 6) 15) + (i : Int)) := by
  have h1 : ∃ t ∈ [(⟨"b1", "Salario", 100, TxType.income, "Salário", ⟨2024, 3, 13⟩, false, none⟩ : Tx)],
      dateDays t.date = 19795 :=
    ⟨⟨"b1", "Salario", 100, TxType.income, "Salário", ⟨2024, 3, 13⟩, false, none⟩,
      List.mem_singleton.mpr rfl, by decide⟩
  have h2 : ∀ t ∈ [(⟨"b1", "Salario", 100, TxType.income, "Salário", ⟨2024, 3, 13⟩, false, none⟩ : Tx)],
      (19795 : Int) ≤ dateDays t.date := by
    intro t ht
    rw [List.mem_singleton] at ht
    subst ht
    decide
  exact ⟨h1, h2,
    balanceTrend_grid
      [⟨"b1", "Salario", 100, TxType.income, "Salário", ⟨2024, 3, 13⟩, false, none⟩]
      ⟨2024, 2, 15⟩ 19795 h1 h2⟩

/-- C6 counterexample.  With the same input, the series starts at day
19795 (2024-03-13, a Wednesday), not at the most recent week-start
boundary 19792 (Sunday 2024-03-10) that the claim prescribes. -/
theorem balanceTrend_no_week_snap_counterexample :
    ((balanceTrend
        [⟨"b1", "Salario", 100, TxType.income, "Salário", ⟨2024, 3, 13⟩, false, none⟩]
        ⟨2024, 2, 15⟩).map Prod.fst).head? = some 19795
      ∧ jsWeekday 19795 ≠ 0
      ∧ sundayOnOrBefore 19795 = 19792
      ∧ (19795 : Int) ≠ 19792 := by
  refine ⟨?_, by decide, by decide, by decide⟩
  decide

/-! ## Upcoming bills (UpcomingBills.upcomingBills)

The source filters recurring expenses, marks a monthly bill upcoming
only when its anchor day is strictly greater than the current day (a
bill anchored on today is dropped), marks a weekly bill upcoming only
when its anchor weekday is strictly after the current weekday, sorts by
`dueDay` ascending, and takes the first five. -/

/-- A processed bill: the transaction plus its computed due day and the
upcoming flag. -/
structure Bill where
  base : Tx
  dueDay : Int
  isUpcoming : Bool
deriving DecidableEq, Repr

/-- Anchor weekday of the original transaction date
(`new Date(year, month-1, day).getDay()`). -/
def origDow (t : Tx) : Int :=
  jsWeekday (jsDateDays t.date.year (t.date.month - 1) t.date.day)

/-- Weekday of today. -/
def todayDow (today : JsDate) : Int :=
  jsWeekday (jsDateDays today.year today.month0 today.day)

/-- The per-transaction mapping of the upcoming-bills pipeline. -/
def project (today : JsDate) (t : Tx) : Bill :=
  match t.frequency with
  | some Freq.monthly =>
    if today.day < t.date.day then ⟨t, t.date.day, true⟩
    else ⟨t, t.date.day, false⟩
  | some Freq.weekly =>
    if todayDow today < origDow t then
      ⟨t, today.day + (origDow t - todayDow today), true⟩
    else ⟨t, t.date.day, false⟩
  | none => ⟨t, t.date.day, false⟩

/-- Ascending due-day comparison used by the final sort. -/
def billLE (a b : Bill) : Prop :=
  a.dueDay ≤ b.dueDay

instance : DecidableRel billLE :=
  fun a b => inferInstanceAs (Decidable (a.dueDay ≤ b.dueDay))

instance : IsTotal Bill billLE :=
  ⟨fun a b => Int.le_total a.dueDay b.dueDay⟩

instance : IsTrans Bill billLE :=
  ⟨fun _ _ _ hab hbc => le_trans hab hbc⟩

/-- The upcoming-bills view model. -/
def upcomingBills (today : JsDate) (txs : List Tx) : List Bill :=
  (List.insertionSort billLE
    (((txs.filter (fun t => decide (t.type = TxType.expense) && t.isRecurring)).map
        (project today)).filter (fun b => b.isUpcoming))).take 5

/-- C8 (amended).  The upcoming-bills view contains exactly the first
five (by due day) of the recurring expense transactions that are
**strictly** due after today within the current period — monthly bills
with anchor day strictly greater than the current day, weekly bills
with anchor weekday strictly after the current weekday; bills due today are
excluded.  The view is sorted ascending by due day (equal to days until
due plus the current day for every included bill) and holds exactly
min(5, number of qualifying bills) entries: it is the five-element
prefix of the qualifying bills arranged in ascending due-day order, so
every shown bill is due no later than every omitted qualifying bill,
and when at most five bills qualify every one of them appears. -/
theorem upcomingBills_spec (today : JsDate) (txs : List Tx) :
    (∀ b ∈ upcomingBills today txs,
        b.base.type = TxType.expense ∧ b.base.isRecurring = true
          ∧ ((b.base.frequency = some Freq.monthly ∧ today.day < b.base.date.day
                ∧ b.dueDay = b.base.date.day)
              ∨ (b.base.frequency = some Freq.weekly ∧ todayDow today < origDow b.base
                  ∧ b.dueDay = today.day + (origDow b.base - todayDow today))))
      ∧ List.Sorted billLE (upcomingBills today txs)
      ∧ (upcomingBills today txs).length
          = min 5 (((txs.filter (fun t => decide (t.type = TxType.expense) && t.isRecurring)).map
            (project today)).filter (fun b => b.isUpcoming)).length
      ∧ (∃ L : List Bill,
            L.Perm (((txs.filter (fun t => decide (t.type = TxType.expense) && t.isRecurring)).map
            (project today)).filter (fun b => b.isUpcoming))
              ∧ List.Sorted billLE L
              ∧ upcomingBills today txs = L.take 5)
      ∧ (∀ b ∈ upcomingBills today txs,
          ∀ q ∈ (((txs.filter (fun t => decide (t.type = TxType.expense) && t.isRecurring)).map
            (project today)).filter (fun b => b.isUpcoming)),
            q ∉ upcomingBills today txs → billLE b q)
      ∧ ((((txs.filter (fun t => decide (t.type = TxType.expense) && t.isRecurring)).map
            (project today)).filter (fun b => b.isUpcoming)).length ≤ 5 →
          ∀ t ∈ txs, t.type = TxType.expense → t.isRecurring = true →
            (project today t).isUpcoming = true →
            project today t ∈ upcomingBills today txs) := by
  refine ⟨?_, ?_, ?_, ?_, ?_, ?_⟩
  · intro b hb
    have hb1 : b ∈ List.insertionSort billLE
        (((txs.filter (fun t => decide (t.type = TxType.expense) && t.isRecurring)).map
            (project today)).filter (fun b => b.isUpcoming)) :=
      List.mem_of_mem_take hb
    rw [List.mem_insertionSort] at hb1
    rcases List.mem_filter.mp hb1 with ⟨hb2, hbu⟩
    rcases List.mem_map.mp hb2 with ⟨t, htf, hproj⟩
    rcases List.mem_filter.mp htf with ⟨_, htp⟩
    simp only [Bool.and_eq_true, decide_eq_true_eq] at htp
    obtain ⟨hexp, hrec⟩ := htp
    subst hproj
    have hbase : (project today t).base = t := by
      unfold project
      cases t.frequency with
      | none => rfl
      | some f => cases f <;> split_ifs <;> rfl
    rw [hbase]
    refine ⟨hexp, hrec, ?_⟩
    unfold project at hbu ⊢
    cases hf : t.frequency with
    | none =>
      rw [hf] at hbu
      simp at hbu
    | some f =>
      cases f with
      | monthly =>
        rw [hf] at hbu
        by_cases hd : today.day < t.date.day
        · refine Or.inl ⟨rfl, hd, ?_⟩
          simp [hd]
        · simp [hd] at hbu
      | weekly =>
        rw [hf] at hbu
        by_cases hd : todayDow today < origDow t
        · refine Or.inr ⟨rfl, hd, ?_⟩
          simp [hd]
        · simp [hd] at hbu
  · exact List.Pairwise.sublist (List.take_sublist 5 _)
      (List.sorted_insertionSort billLE _)
  · rw [upcomingBills, List.length_take, List.length_insertionSort]
  · refine ⟨List.insertionSort billLE (((txs.filter (fun t => decide (t.type = TxType.expense) && t.isRecurring)).map
            (project today)).filter (fun b => b.isUpcoming)),
      List.perm_insertionSort billLE _, List.sorted_insertionSort billLE _, ?_⟩
    rw [upcomingBills]
  · intro b hb q hq hqn
    have hqL : q ∈ List.insertionSort billLE (((txs.filter (fun t => decide (t.type = TxType.expense) && t.isRecurring)).map
            (project today)).filter (fun b => b.isUpcoming)) :=
      (List.mem_insertionSort billLE).mpr hq
    have hsplit := List.take_append_drop 5 (List.insertionSort billLE (((txs.filter (fun t => decide (t.type = TxType.expense) && t.isRecurring)).map
            (project today)).filter (fun b => b.isUpcoming)))
    have hqtd : q ∈ (List.insertionSort billLE (((txs.filter (fun t => decide (t.type = TxType.expense) && t.isRecurring)).map
            (project today)).filter (fun b => b.isUpcoming))).take 5
        ++ (List.insertionSort billLE (((txs.filter (fun t => decide (t.type = TxType.expense) && t.isRecurring)).map
            (project today)).filter (fun b => b.isUpcoming))).drop 5 := by
      rw [hsplit]
      exact hqL
    have hqd : q ∈ (List.insertionSort billLE (((txs.filter (fun t => decide (t.type = TxType.expense) && t.isRecurring)).map
            (project today)).filter (fun b => b.isUpcoming))).drop 5 := by
      rcases List.mem_append.mp hqtd with h | h
      · exact absurd h hqn
      · exact h
    have hpw : List.Pairwise billLE ((List.insertionSort billLE (((txs.filter (fun t => decide (t.type = TxType.expense) && t.isRecurring)).map
            (project today)).filter (fun b => b.isUpcoming))).take 5
        ++ (List.insertionSort billLE (((txs.filter (fun t => decide (t.type = TxType.expense) && t.isRecurring)).map
            (project today)).filter (fun b => b.isUpcoming))).drop 5) := by
      rw [hsplit]
      exact List.sorted_insertionSort billLE _
    rcases List.pairwise_append.mp hpw with ⟨_, _, hcross⟩
    exact hcross b hb q hqd
  · intro hlen t ht hexp hrec hup
    have hmem1 : project today t
        ∈ ((txs.filter (fun t => decide (t.type = TxType.expense) && t.isRecurring)).map
            (project today)).filter (fun b => b.isUpcoming) := by
      rw [List.mem_filter]
      refine ⟨List.mem_map_of_mem _ ?_, hup⟩
      rw [List.mem_filter]
      exact ⟨ht, by simp [hexp, hrec]⟩
    have hmem2 : project today t ∈ List.insertionSort billLE
        (((txs.filter (fun t => decide (t.type = TxType.expense) && t.isRecurring)).map
            (project today)).filter (fun b => b.isUpcoming)) := by
      rw [List.mem_insertionSort]
      exact hmem1
    rw [upcomingBills, List.take_of_length_le]
    · exact hmem2
    · rw [List.length_insertionSort]
      exact hlen

/-- C8 counterexample.  A monthly recurring expense anchored on day 15
with today 2024-03-15: the Recurrence Projector puts its next due date
on 2024-03-15 — due today, inside the current month — yet the
upcoming-bills view is empty, while the claim requires bills due today
to appear. -/
theorem upcomingBills_due_today_counterexample :
    processedNextDue ⟨2024, 2, 15⟩
        ⟨"u1", "Academia", 80, TxType.expense, "Saúde", ⟨2024, 1, 15⟩, true, some Freq.monthly⟩
        = jsDateDays 2024 2 15
      ∧ upcomingBills ⟨2024, 2, 15⟩
          [⟨"u1", "Academia", 80, TxType.expense, "Saúde", ⟨2024, 1, 15⟩, true, some Freq.monthly⟩]
          = [] := by
  constructor
  · decide
  · decide

/-- C1 witness: the total-balance identity instantiated at a concrete
input. -/
theorem financialReport_month_identities_witness :
    (financialReport
        [⟨"t1", "adiantamento", 100, TxType.income, "Outros", ⟨2024, 4, 1⟩, false, none⟩]
        ⟨2024, 2, 15⟩).totalBalance
      = allSignedSum
          [⟨"t1", "adiantamento", 100, TxType.income, "Outros", ⟨2024, 4, 1⟩, false, none⟩] :=
  (financialReport_month_identities
    [⟨"t1", "adiantamento", 100, TxType.income, "Outros", ⟨2024, 4, 1⟩, false, none⟩]
    ⟨2024, 2, 15⟩).2.2.1

/-- C2 witness: the duplicate characterization instantiated at a
concrete pair. -/
theorem isDuplicate_characterization_witness :
    isDuplicate
        [⟨"e1", "TAR MAXI CONTA MENSAL", 45, TxType.expense, "Outros", ⟨2024, 2, 1⟩, false, none⟩]
        ⟨"c1", "tarifa conta", 45.009, TxType.expense, "Outros", ⟨2024, 2, 1⟩, false, none⟩ = true
      ↔ ∃ e ∈ [(⟨"e1", "TAR MAXI CONTA MENSAL", 45, TxType.expense, "Outros", ⟨2024, 2, 1⟩, false, none⟩ : Tx)],
          e.date = Ymd.mk 2024 2 1 ∧ e.type = TxType.expense
            ∧ |e.amount - (45.009 : ℚ)| < 1 / 100 :=
  isDuplicate_characterization.1
    [⟨"e1", "TAR MAXI CONTA MENSAL", 45, TxType.expense, "Outros", ⟨2024, 2, 1⟩, false, none⟩]
    ⟨"c1", "tarifa conta", 45.009, TxType.expense, "Outros", ⟨2024, 2, 1⟩, false, none⟩

/-- C4 witness: idempotence instantiated at a concrete batch. -/
theorem reconcile_idempotent_witness :
    (reconcile
        ([] ++ (reconcile []
          [⟨"c1", "Uber", 30, TxType.expense, "Transporte", ⟨2024, 3, 1⟩, false, none⟩]).1)
        [⟨"c1", "Uber", 30, TxType.expense, "Transporte", ⟨2024, 3, 1⟩, false, none⟩]).2.2
      = [(⟨"c1", "Uber", 30, TxType.expense, "Transporte", ⟨2024, 3, 1⟩, false, none⟩ : Tx)].length :=
  reconcile_idempotent []
    [⟨"c1", "Uber", 30, TxType.expense, "Transporte", ⟨2024, 3, 1⟩, false, none⟩]

/-- C8 witness: sortedness of the view instantiated at a concrete
input. -/
theorem upcomingBills_spec_witness :
    List.Sorted billLE
      (upcomingBills ⟨2024, 2, 15⟩
        [⟨"u2", "Academia", 80, TxType.expense, "Saúde", ⟨2024, 1, 20⟩, true, some Freq.monthly⟩]) :=
  (upcomingBills_spec ⟨2024, 2, 15⟩
    [⟨"u2", "Academia", 80, TxType.expense, "Saúde", ⟨2024, 1, 20⟩, true, some Freq.monthly⟩]).2.1

/-- C9 witness: the failure branch instantiated at a concrete input. -/
theorem deleteTransaction_atomic_witness :
    (deleteTransaction
        [⟨"d1", "Mercado", 50, TxType.expense, "Alimentação", ⟨2024, 3, 10⟩, false, none⟩]
        "d1" false).1
      = [⟨"d1", "Mercado", 50, TxType.expense, "Alimentação", ⟨2024, 3, 10⟩, false, none⟩]
      ∧ (deleteTransaction
          [⟨"d1", "Mercado", 50, TxType.expense, "Alimentação", ⟨2024, 3, 10⟩, false, none⟩]
          "d1" false).2 = false :=
  (deleteTransaction_atomic
    [⟨"d1", "Mercado", 50, TxType.expense, "Alimentação", ⟨2024, 3, 10⟩, false, none⟩] "d1").1

/-- C10 witness: exactness of the candidate accounting instantiated at a
concrete batch. -/
theorem reconcile_accounts_every_candidate_witness :
    (reconcile [] [⟨"c2", "iFood", 40, TxType.expense, "Alimentação", ⟨2024, 3, 2⟩, false, none⟩]).2.1
        + (reconcile [] [⟨"c2", "iFood", 40, TxType.expense, "Alimentação", ⟨2024, 3, 2⟩, false, none⟩]).2.2
      = [(⟨"c2", "iFood", 40, TxType.expense, "Alimentação", ⟨2024, 3, 2⟩, false, none⟩ : Tx)].length :=
  (reconcile_accounts_every_candidate []
    [⟨"c2", "iFood", 40, TxType.expense, "Alimentação", ⟨2024, 3, 2⟩, false, none⟩]).1
